import Mathlib

/-!
Verification development for the libsbn generalized-pruning (GP) core.

We shallowly embed the relevant parts of the source:
* `src/gp_engine.cpp` — the numerical engine executing the GP operation
  stream on partial likelihood vectors (PLVs) with rescaling;
* `src/sbn_probability.cpp` — simple-average and EM estimation of SBN
  parameters and per-topology probability evaluation;
* `src/gp_dag.cpp` — subsplit-DAG construction, the PCSP indexer and the
  rootward/leafward traversal orders.

Machine floating point is embedded as exact arithmetic: PLV entries,
branch lengths and SBN parameters live in `ℚ` (so that everything stays
computable) except where the source genuinely uses transcendental
functions (`log`/`exp` in `UpdateSBNProbabilities`), which we embed over
`ℝ`. `std::exp` inside the transition matrix is kept as an abstract
function parameter of the substitution model.  A fatal `Assert`/
`Failwith` in the source is embedded as an `Option`-valued operation
returning `none`.
-/

namespace LibSbn

/-- The engine state of `GPEngine` (gp_engine.cpp): the PLVs (`plvs_`,
each a `base_count × pattern_count` matrix, `base_count = 4`), the
per-PLV rescaling counts (`plv_rescaling_counts_`), and the per-GPCSP
vectors `branch_lengths_`, `log_likelihoods_`, `q_`, plus the running
`log_marginal_likelihood_`.  `α` is the scalar type standing for
`double`. -/
structure GPEngineState (α : Type) (plvCount patternCount : ℕ) where
  plvs : Fin plvCount → Matrix (Fin 4) (Fin patternCount) α
  plvRescalingCounts : Fin plvCount → ℤ
  branchLengths : ℕ → α
  logLikelihoods : ℕ → α
  q : ℕ → α
  logMarginalLikelihood : α

/-- The substitution-model data the engine borrows: right eigenvectors,
their inverse, eigenvalues, and the exponential function used in
`SetTransitionMatrixToHaveBranchLength` (`std::exp`, kept abstract). -/
structure EvolutionModel (α : Type) where
  expf : α → α
  eigenmatrix : Matrix (Fin 4) (Fin 4) α
  inverseEigenmatrix : Matrix (Fin 4) (Fin 4) α
  eigenvalues : Fin 4 → α

/-- `GPEngine::SetTransitionMatrixToHaveBranchLength` (gp_engine.cpp
136-139): `diagonal_matrix_.diagonal() = (l * eigenvalues_).array().exp();
transition_matrix_ = eigenmatrix_ * diagonal_matrix_ *
inverse_eigenmatrix_`. -/
def setTransitionMatrixToHaveBranchLength {α : Type} [CommRing α]
    (model : EvolutionModel α) (branchLength : α) : Matrix (Fin 4) (Fin 4) α :=
  model.eigenmatrix *
    Matrix.diagonal (fun i => model.expf (branchLength * model.eigenvalues i)) *
    model.inverseEigenmatrix

/-- `GPEngine::operator()(const GPOperations::IncrementWithWeightedEvolvedPLV&)`
(gp_engine.cpp 48-66).  Computes the transition matrix for the stored
branch length; asserts `rescaling_difference ≤ 0` (fatal otherwise,
embedded as `none`); multiplies in the rescaling factor
`threshold^difference` (literal `1.` when the difference is zero); then
`plvs_.at(dest) += factor * q_(gpcsp) * transition_matrix_ *
plvs_.at(src)`. -/
def incrementWithWeightedEvolvedPLV {α : Type} [Field α] {m n : ℕ}
    (threshold : α) (model : EvolutionModel α) (dest src : Fin m) (gpcsp : ℕ)
    (s : GPEngineState α m n) : Option (GPEngineState α m n) :=
  let transitionMatrix := setTransitionMatrixToHaveBranchLength model (s.branchLengths gpcsp)
  let rescalingDifference : ℤ := s.plvRescalingCounts dest - s.plvRescalingCounts src
  if rescalingDifference ≤ 0 then
    let rescalingFactor : α :=
      if rescalingDifference = 0 then 1 else threshold ^ rescalingDifference
    some { s with
      plvs := Function.update s.plvs dest
        (s.plvs dest + (rescalingFactor * s.q gpcsp) • (transitionMatrix * s.plvs src)) }
  else none

/-- C1: executing `IncrementWithWeightedEvolvedPLV` with
`c(dest) ≤ c(src)` adds
`threshold^(c(dest)-c(src)) * q[gpcsp] * P(branch_lengths[gpcsp]) * src`
to the stored `dest` PLV, where `P(l) = V * diag(exp(l*λ)) * V⁻¹`, leaves
every rescaling counter (in particular `dest`'s) unchanged, and leaves
all other state components untouched; with `c(dest) > c(src)` the
operation is fatal. -/
theorem C1_increment_with_weighted_evolved_plv {m n : ℕ}
    (threshold : ℚ) (model : EvolutionModel ℚ) (dest src : Fin m) (gpcsp : ℕ)
    (s : GPEngineState ℚ m n) :
    (s.plvRescalingCounts dest ≤ s.plvRescalingCounts src →
      ∃ s2, incrementWithWeightedEvolvedPLV threshold model dest src gpcsp s = some s2 ∧
        s2.plvs dest = s.plvs dest +
          (threshold ^ (s.plvRescalingCounts dest - s.plvRescalingCounts src) * s.q gpcsp) •
            (setTransitionMatrixToHaveBranchLength model (s.branchLengths gpcsp) *
              s.plvs src) ∧
        s2.plvRescalingCounts = s.plvRescalingCounts ∧
        (∀ j, j ≠ dest → s2.plvs j = s.plvs j) ∧
        s2.branchLengths = s.branchLengths ∧
        s2.logLikelihoods = s.logLikelihoods ∧
        s2.q = s.q ∧
        s2.logMarginalLikelihood = s.logMarginalLikelihood) ∧
    (s.plvRescalingCounts src < s.plvRescalingCounts dest →
      incrementWithWeightedEvolvedPLV threshold model dest src gpcsp s = none) := by
  constructor
  · intro h
    have hle : s.plvRescalingCounts dest - s.plvRescalingCounts src ≤ 0 := by omega
    refine ⟨{ s with
      plvs := Function.update s.plvs dest
        (s.plvs dest +
          ((if s.plvRescalingCounts dest - s.plvRescalingCounts src = 0 then 1
              else threshold ^ (s.plvRescalingCounts dest - s.plvRescalingCounts src)) *
            s.q gpcsp) •
            (setTransitionMatrixToHaveBranchLength model (s.branchLengths gpcsp) *
              s.plvs src)) }, ?_, ?_, rfl, ?_, rfl, rfl, rfl, rfl⟩
    · simp only [incrementWithWeightedEvolvedPLV, if_pos hle]
    · dsimp only
      rw [Function.update_same]
      by_cases hz : s.plvRescalingCounts dest - s.plvRescalingCounts src = 0
      · rw [if_pos hz, hz, zpow_zero]
      · rw [if_neg hz]
    · intro j hj
      exact Function.update_noteq hj _ _
  · intro h
    have hlt : ¬ (s.plvRescalingCounts dest - s.plvRescalingCounts src ≤ 0) := by omega
    simp only [incrementWithWeightedEvolvedPLV, if_neg hlt]

/-- A concrete engine state used by witnesses: two PLV slots over a
single site pattern. -/
def witnessState : GPEngineState ℚ 2 1 where
  plvs := fun _ => Matrix.of (fun _ _ => (1 : ℚ))
  plvRescalingCounts := fun j => if j = 0 then 1 else 3
  branchLengths := fun _ => 1
  logLikelihoods := fun _ => 0
  q := fun _ => 1
  logMarginalLikelihood := 0

/-- A concrete substitution model used by witnesses. -/
def witnessModel : EvolutionModel ℚ where
  expf := fun x => 1 + x
  eigenmatrix := 1
  inverseEigenmatrix := 1
  eigenvalues := fun _ => 1

theorem C1_witness :
    witnessState.plvRescalingCounts 0 ≤ witnessState.plvRescalingCounts 1 ∧
    ∃ s2, incrementWithWeightedEvolvedPLV (1/2) witnessModel 0 1 0 witnessState = some s2 ∧
      s2.plvs 0 = witnessState.plvs 0 +
        ((1/2 : ℚ) ^ (witnessState.plvRescalingCounts 0 - witnessState.plvRescalingCounts 1) *
          witnessState.q 0) •
          (setTransitionMatrixToHaveBranchLength witnessModel (witnessState.branchLengths 0) *
            witnessState.plvs 1) ∧
      s2.plvRescalingCounts = witnessState.plvRescalingCounts ∧
      (∀ j, j ≠ 0 → s2.plvs j = witnessState.plvs j) ∧
      s2.branchLengths = witnessState.branchLengths ∧
      s2.logLikelihoods = witnessState.logLikelihoods ∧
      s2.q = witnessState.q ∧
      s2.logMarginalLikelihood = witnessState.logMarginalLikelihood := by
  refine ⟨by decide, ?_⟩
  exact (C1_increment_with_weighted_evolved_plv (1/2) witnessModel 0 1 0 witnessState).1
    (by decide)

/-- Modelled from the spec: the result of `Optimization::BrentMinimize`
(optimization.hpp, not under src/) — "Brent's 1-D minimiser of the
negative log-likelihood", returning the located branch length together
with the value of the objective there. -/
structure BrentResult (α : Type) where
  branchLength : α
  negLogLikelihood : α

/-- `GPEngine::BrentOptimization` (gp_engine.cpp 237-257): evaluate the
negative log-likelihood at the current branch length, run
`BrentMinimize` (abstract here, see `BrentResult`), and if the returned
objective value is strictly greater than the current one, reset
`branch_lengths_(gpcsp)` to the previous value; otherwise store the
returned branch length.  The objective `nll` is a fixed function of the
branch length because all PLVs and `q_` are unchanged during the
operation. -/
def brentOptimization {α : Type} [LinearOrder α] {m n : ℕ}
    (nll : α → α) (res : BrentResult α) (gpcsp : ℕ)
    (s : GPEngineState α m n) : GPEngineState α m n :=
  let currentBranchLength := s.branchLengths gpcsp
  let currentValue := nll currentBranchLength
  let newBranchLength :=
    if res.negLogLikelihood > currentValue then currentBranchLength
    else res.branchLength
  { s with branchLengths := Function.update s.branchLengths gpcsp newBranchLength }

/-- C3: after `OptimizeBranchLength`, the stored branch length equals the
Brent result when the negative log-likelihood there is not strictly
worse than at the starting branch length, and equals the starting branch
length otherwise; consequently the negative log-likelihood at the stored
branch length never exceeds the one at the starting value. -/
theorem C3_brent_optimization {m n : ℕ} (nll : ℚ → ℚ) (res : BrentResult ℚ)
    (gpcsp : ℕ) (s : GPEngineState ℚ m n)
    (hres : res.negLogLikelihood = nll res.branchLength) :
    ((¬ nll res.branchLength > nll (s.branchLengths gpcsp) →
        (brentOptimization nll res gpcsp s).branchLengths gpcsp = res.branchLength) ∧
      (nll res.branchLength > nll (s.branchLengths gpcsp) →
        (brentOptimization nll res gpcsp s).branchLengths gpcsp = s.branchLengths gpcsp)) ∧
    nll ((brentOptimization nll res gpcsp s).branchLengths gpcsp) ≤
      nll (s.branchLengths gpcsp) := by
  have hup : (brentOptimization nll res gpcsp s).branchLengths gpcsp =
      (if nll res.branchLength > nll (s.branchLengths gpcsp) then s.branchLengths gpcsp
       else res.branchLength) := by
    simp only [brentOptimization, Function.update_same, hres]
  refine ⟨⟨?_, ?_⟩, ?_⟩
  · intro hnot; rw [hup, if_neg hnot]
  · intro hgt; rw [hup, if_pos hgt]
  · rw [hup]
    by_cases hgt : nll res.branchLength > nll (s.branchLengths gpcsp)
    · rw [if_pos hgt]
    · rw [if_neg hgt]; push_neg at hgt; exact hgt

theorem C3_witness :
    (⟨3, 9⟩ : BrentResult ℚ).negLogLikelihood = (fun x => x * x) (⟨3, 9⟩ : BrentResult ℚ).branchLength ∧
    (((¬ (fun x => x * x) (⟨3, 9⟩ : BrentResult ℚ).branchLength >
          (fun x => x * x) (witnessState.branchLengths 0) →
        (brentOptimization (fun x => x * x) ⟨3, 9⟩ 0 witnessState).branchLengths 0 =
          (⟨3, 9⟩ : BrentResult ℚ).branchLength) ∧
      ((fun x => x * x) (⟨3, 9⟩ : BrentResult ℚ).branchLength >
          (fun x => x * x) (witnessState.branchLengths 0) →
        (brentOptimization (fun x => x * x) ⟨3, 9⟩ 0 witnessState).branchLengths 0 =
          witnessState.branchLengths 0)) ∧
    (fun x => x * x) ((brentOptimization (fun x => x * x) ⟨3, 9⟩ 0 witnessState).branchLengths 0) ≤
      (fun x => x * x) (witnessState.branchLengths 0)) :=
  ⟨by norm_num, C3_brent_optimization (fun x => x * x) ⟨3, 9⟩ 0 witnessState (by norm_num)⟩

/-- `GPEngine::operator()(const GPOperations::Zero&)` (gp_engine.cpp
35-38): zero the PLV at `dest` and clear its rescaling count. -/
def zeroOp {α : Type} [Zero α] {m n : ℕ} (dest : Fin m)
    (s : GPEngineState α m n) : GPEngineState α m n :=
  { s with
    plvs := Function.update s.plvs dest 0
    plvRescalingCounts := Function.update s.plvRescalingCounts dest 0 }

/-- `GPEngine::operator()(const GPOperations::PrepForMarginalization&)`
(gp_engine.cpp 117-128): assert the `src` vector is nonempty (fatal
otherwise), collect the rescaling counts of all `src` PLVs, zero the
`dest` PLV, and set `dest`'s rescaling count to the minimum collected
count. -/
def prepForMarginalization {α : Type} [Zero α] {m n : ℕ} (dest : Fin m)
    (srcs : List (Fin m)) (s : GPEngineState α m n) : Option (GPEngineState α m n) :=
  match srcs with
  | [] => none
  | a :: rest =>
    some { s with
      plvs := Function.update s.plvs dest 0
      plvRescalingCounts := Function.update s.plvRescalingCounts dest
        (rest.foldl (fun acc j => min acc (s.plvRescalingCounts j))
          (s.plvRescalingCounts a)) }

/-- C9 counterexample: running `PrepForMarginalization` on a state whose
sole `src` slot has rescaling count 3 produces a `dest` PLV that is
identically zero while its rescaling counter is 3, not 0 — refuting the
claim that every identically-zero slot has counter 0 at every point of
an operation stream. -/
theorem C9_counterexample :
    ((prepForMarginalization (0 : Fin 2) [1] witnessState).getD witnessState).plvs 0 = 0 ∧
    ((prepForMarginalization (0 : Fin 2) [1] witnessState).getD witnessState).plvRescalingCounts 0 = 3 ∧
    (prepForMarginalization (0 : Fin 2) [1] witnessState).isSome = true := by
  refine ⟨?_, by decide, by decide⟩
  funext i j
  simp [prepForMarginalization, witnessState]

theorem foldl_min_le_init {α : Type} [LinearOrder α] (l : List α) (acc : α) :
    l.foldl min acc ≤ acc := by
  induction l generalizing acc with
  | nil => exact le_rfl
  | cons b t ih => exact le_trans (ih (min acc b)) (min_le_left acc b)

theorem foldl_min_le_mem {α : Type} [LinearOrder α] (l : List α) (acc : α) :
    ∀ x ∈ l, l.foldl min acc ≤ x := by
  induction l generalizing acc with
  | nil => intro x hx; cases hx
  | cons b t ih =>
    intro x hx
    rcases List.mem_cons.mp hx with rfl | hx
    · exact le_trans (foldl_min_le_init t (min acc x)) (min_le_right acc x)
    · exact ih (min acc b) x hx

theorem foldl_min_mem {α : Type} [LinearOrder α] (l : List α) (acc : α) :
    l.foldl min acc = acc ∨ l.foldl min acc ∈ l := by
  induction l generalizing acc with
  | nil => exact Or.inl rfl
  | cons b t ih =>
    rcases ih (min acc b) with h | h
    · rcases min_cases acc b with ⟨hm, _⟩ | ⟨hm, _⟩
      · exact Or.inl (by rw [List.foldl_cons, h, hm])
      · exact Or.inr (by rw [List.foldl_cons, h, hm]; exact List.mem_cons_self b t)
    · exact Or.inr (List.mem_cons_of_mem b h)

/-- C9 (amended): after a `Zero` operation the zeroed slot is
identically zero with rescaling counter 0; `PrepForMarginalization` with
an empty src vector is fatal, and otherwise zeroes the dst PLV but sets
its rescaling counter to the minimum of the src slots' counters — which
need not be zero, so an identically-zero slot can carry a nonzero
counter. -/
theorem C9_amended_zero_and_prep {m n : ℕ} (dest : Fin m) (srcs : List (Fin m))
    (s : GPEngineState ℚ m n) :
    ((zeroOp dest s).plvs dest = 0 ∧ (zeroOp dest s).plvRescalingCounts dest = 0) ∧
    (srcs = [] → prepForMarginalization dest srcs s = none) ∧
    (srcs ≠ [] →
      ∃ s2, prepForMarginalization dest srcs s = some s2 ∧
        s2.plvs dest = 0 ∧
        s2.plvRescalingCounts dest ∈ srcs.map s.plvRescalingCounts ∧
        (∀ j ∈ srcs, s2.plvRescalingCounts dest ≤ s.plvRescalingCounts j)) := by
  refine ⟨⟨?_, ?_⟩, ?_, ?_⟩
  · simp [zeroOp, Function.update_same]
  · simp [zeroOp, Function.update_same]
  · rintro rfl; rfl
  · intro hne
    match srcs, hne with
    | a :: rest, _ =>
      have hfold : rest.foldl (fun acc j => min acc (s.plvRescalingCounts j))
          (s.plvRescalingCounts a) =
          (rest.map s.plvRescalingCounts).foldl min (s.plvRescalingCounts a) :=
        (List.foldl_map s.plvRescalingCounts min rest (s.plvRescalingCounts a)).symm
      refine ⟨_, rfl, ?_, ?_, ?_⟩
      · exact Function.update_same dest 0 s.plvs
      · dsimp only
        rw [Function.update_same, hfold, List.map_cons]
        rcases foldl_min_mem (rest.map s.plvRescalingCounts) (s.plvRescalingCounts a) with
          h | h
        · rw [h]; exact List.mem_cons_self _ _
        · exact List.mem_cons_of_mem _ h
      · intro j hj
        dsimp only
        rw [Function.update_same, hfold]
        rcases List.mem_cons.mp hj with rfl | hj
        · exact foldl_min_le_init _ _
        · exact foldl_min_le_mem _ _ _ (List.mem_map_of_mem s.plvRescalingCounts hj)

theorem C9_witness :
    (([1] : List (Fin 2)) ≠ []) ∧
    (∃ s2, prepForMarginalization (0 : Fin 2) [1] witnessState = some s2 ∧
      s2.plvs 0 = 0 ∧
      s2.plvRescalingCounts 0 ∈ ([1] : List (Fin 2)).map witnessState.plvRescalingCounts ∧
      (∀ j ∈ ([1] : List (Fin 2)),
        s2.plvRescalingCounts 0 ≤ witnessState.plvRescalingCounts j)) :=
  ⟨by decide, (C9_amended_zero_and_prep 0 [1] witnessState).2.2 (by decide)⟩

/-- Eigen's `minCoeff()` over a `4 × n` PLV matrix (`n = 0` never occurs
in the engine: a zero pattern count is rejected at input). -/
def minCoeff {n : ℕ} (M : Matrix (Fin 4) (Fin n) ℚ) : ℚ :=
  if h : 0 < n then
    (Finset.univ : Finset (Fin 4 × Fin n)).inf'
      ⟨(0, ⟨0, h⟩), Finset.mem_univ _⟩ (fun p => M p.1 p.2)
  else 0

theorem minCoeff_le {n : ℕ} (h : 0 < n) (M : Matrix (Fin 4) (Fin n) ℚ)
    (i : Fin 4) (j : Fin n) : minCoeff M ≤ M i j := by
  rw [minCoeff, dif_pos h]
  exact Finset.inf'_le _ (Finset.mem_univ (i, j))

theorem exists_minCoeff_eq {n : ℕ} (h : 0 < n) (M : Matrix (Fin 4) (Fin n) ℚ) :
    ∃ i j, minCoeff M = M i j := by
  rw [minCoeff, dif_pos h]
  obtain ⟨p, _, hp⟩ := Finset.exists_mem_eq_inf'
    (⟨((0 : Fin 4), ⟨0, h⟩), Finset.mem_univ _⟩ : (Finset.univ : Finset (Fin 4 × Fin n)).Nonempty)
    (fun p : Fin 4 × Fin n => M p.1 p.2)
  exact ⟨p.1, p.2, hp⟩

theorem minCoeff_nonneg {n : ℕ} (M : Matrix (Fin 4) (Fin n) ℚ)
    (hM : ∀ i j, 0 ≤ M i j) : 0 ≤ minCoeff M := by
  by_cases h : 0 < n
  · obtain ⟨i, j, hij⟩ := exists_minCoeff_eq h M
    rw [hij]; exact hM i j
  · rw [minCoeff, dif_neg h]

theorem minCoeff_smul {n : ℕ} (c : ℚ) (hc : 0 ≤ c) (M : Matrix (Fin 4) (Fin n) ℚ) :
    minCoeff (c • M) = c * minCoeff M := by
  by_cases h : 0 < n
  · apply le_antisymm
    · obtain ⟨i, j, hij⟩ := exists_minCoeff_eq h M
      calc minCoeff (c • M) ≤ (c • M) i j := minCoeff_le h _ i j
        _ = c * M i j := Matrix.smul_apply c M i j
        _ = c * minCoeff M := by rw [hij]
    · obtain ⟨i, j, hij⟩ := exists_minCoeff_eq h (c • M)
      rw [hij, Matrix.smul_apply]
      exact mul_le_mul_of_nonneg_left (minCoeff_le h M i j) hc
  · rw [minCoeff, dif_neg h, minCoeff, dif_neg h, mul_zero]

theorem rescalingCount_exists {threshold minEntry : ℚ} (ht0 : 0 < threshold)
    (ht1 : threshold < 1) (hm : 0 < minEntry) :
    ∃ k : ℕ, threshold ≤ minEntry / threshold ^ k := by
  obtain ⟨k, hk⟩ := exists_pow_lt_of_lt_one hm ht1
  exact ⟨k, le_of_lt (lt_trans ht1 ((one_lt_div (pow_pos ht0 k)).mpr hk))⟩

/-- The while loop of `GPEngine::RescalePLVIfNeeded` (gp_engine.cpp
225-229): starting from `minEntry`, divide by `threshold` and increment
the count while the running value is below `threshold`.  After `k`
iterations the running value is `minEntry / threshold^k`, so the loop
returns the least `k` with `threshold ≤ minEntry / threshold^k`; the
engine's threshold satisfies `0 < threshold < 1` (default `2^-40`) and
the loop is reached only with `0 < minEntry`. -/
def rescalingCount (threshold minEntry : ℚ) : ℕ :=
  if h : 0 < threshold ∧ threshold < 1 ∧ 0 < minEntry then
    Nat.find (rescalingCount_exists h.1 h.2.1 h.2.2)
  else 0

/-- `GPEngine::RescalePLV` (gp_engine.cpp 208-216): when the count is
nonzero, divide the PLV at `idx` by `threshold^count` and add `count` to
its rescaling counter. -/
def rescalePLV {m n : ℕ} (threshold : ℚ) (idx : Fin m) (count : ℕ)
    (s : GPEngineState ℚ m n) : GPEngineState ℚ m n :=
  if count = 0 then s
  else
    { s with
      plvs := Function.update s.plvs idx ((threshold ^ count)⁻¹ • s.plvs idx)
      plvRescalingCounts := Function.update s.plvRescalingCounts idx
        (s.plvRescalingCounts idx + count) }

/-- `GPEngine::RescalePLVIfNeeded` (gp_engine.cpp 218-231): assert the
minimum entry is nonnegative (fatal otherwise), return unchanged when it
is exactly zero, and otherwise rescale by the count computed by the
while loop. -/
def rescalePLVIfNeeded {m n : ℕ} (threshold : ℚ) (idx : Fin m)
    (s : GPEngineState ℚ m n) : Option (GPEngineState ℚ m n) :=
  let minEntry := minCoeff (s.plvs idx)
  if minEntry < 0 then none
  else if minEntry = 0 then some s
  else some (rescalePLV threshold idx (rescalingCount threshold minEntry) s)

/-- `GPEngine::operator()(const GPOperations::Multiply&)` (gp_engine.cpp
85-90): elementwise product of the two src PLVs into dest, dest's
rescaling counter is the sum of the src counters, then
`RescalePLVIfNeeded(dest)`. -/
def multiplyOp {m n : ℕ} (threshold : ℚ) (dest src1 src2 : Fin m)
    (s : GPEngineState ℚ m n) : Option (GPEngineState ℚ m n) :=
  let s2 :=
    { s with
      plvs := Function.update s.plvs dest
        (Matrix.of fun i j => s.plvs src1 i j * s.plvs src2 i j)
      plvRescalingCounts := Function.update s.plvRescalingCounts dest
        (s.plvRescalingCounts src1 + s.plvRescalingCounts src2) }
  rescalePLVIfNeeded threshold dest s2

theorem true_value_product {n : ℕ} (threshold : ℚ) (ht : threshold ≠ 0)
    (c1 c2 : ℤ) (k : ℕ) (A B : Matrix (Fin 4) (Fin n) ℚ) :
    threshold ^ (c1 + c2 + (k : ℤ)) •
        ((threshold ^ k)⁻¹ • Matrix.of (fun i j => A i j * B i j)) =
      Matrix.of (fun i j => (threshold ^ c1 • A) i j * (threshold ^ c2 • B) i j) := by
  have hinv : (threshold ^ k)⁻¹ = threshold ^ (-(k : ℤ)) := by
    rw [← zpow_natCast threshold k, ← zpow_neg]
  ext i j
  simp only [Matrix.smul_apply, Matrix.of_apply, hinv, smul_eq_mul]
  rw [← mul_assoc, ← zpow_add₀ ht]
  have harith : c1 + c2 + (k : ℤ) + -(k : ℤ) = c1 + c2 := by ring
  rw [harith, zpow_add₀ ht]
  ring

/-- C2 (amended): a `Multiply` on PLV slots with non-negative entries
succeeds and stores in dst the elementwise product of the stored srcs
divided by `threshold^k`, where `k = 0` when the product contains an
exact zero and otherwise `k` is the least integer making dst's minimum
entry at least `threshold`; dst's rescaling counter becomes
`c(src1) + c(src2) + k`.  Hence the value `stored · threshold^(+c)` of
dst equals the elementwise product of the corresponding values of the
srcs (the claim's formula `stored · threshold^(−c)` does not hold, see
the counterexample: the engine's own `LogRescalingFor` correction
`+c·log(threshold)` fixes the `+c` convention). -/
theorem C2_multiply_amended {m n : ℕ} (threshold : ℚ) (dest src1 src2 : Fin m)
    (s : GPEngineState ℚ m n)
    (ht0 : 0 < threshold) (ht1 : threshold < 1)
    (h1 : ∀ i j, 0 ≤ s.plvs src1 i j) (h2 : ∀ i j, 0 ≤ s.plvs src2 i j) :
    ∃ k : ℕ, ∃ s2, multiplyOp threshold dest src1 src2 s = some s2 ∧
      s2.plvs dest = (threshold ^ k)⁻¹ •
        Matrix.of (fun i j => s.plvs src1 i j * s.plvs src2 i j) ∧
      s2.plvRescalingCounts dest =
        s.plvRescalingCounts src1 + s.plvRescalingCounts src2 + k ∧
      ((∃ i j, s.plvs src1 i j * s.plvs src2 i j = 0) → k = 0) ∧
      ((∀ i j, s.plvs src1 i j * s.plvs src2 i j ≠ 0) → 0 < n →
        IsLeast {j : ℕ | threshold ≤ minCoeff ((threshold ^ j)⁻¹ •
          Matrix.of (fun a b => s.plvs src1 a b * s.plvs src2 a b))} k) ∧
      threshold ^ s2.plvRescalingCounts dest • s2.plvs dest =
        Matrix.of (fun i j =>
          (threshold ^ s.plvRescalingCounts src1 • s.plvs src1) i j *
          (threshold ^ s.plvRescalingCounts src2 • s.plvs src2) i j) := by
  set A : Matrix (Fin 4) (Fin n) ℚ :=
    Matrix.of (fun i j => s.plvs src1 i j * s.plvs src2 i j) with hA
  set c12 : ℤ := s.plvRescalingCounts src1 + s.plvRescalingCounts src2 with hc12
  set s2mid : GPEngineState ℚ m n :=
    { s with
      plvs := Function.update s.plvs dest A
      plvRescalingCounts := Function.update s.plvRescalingCounts dest c12 } with hs2mid
  have hAnn : ∀ i j, 0 ≤ A i j := fun i j => mul_nonneg (h1 i j) (h2 i j)
  have hminA : 0 ≤ minCoeff A := minCoeff_nonneg A hAnn
  have hmidplv : s2mid.plvs dest = A := Function.update_same dest A s.plvs
  have hmidcount : s2mid.plvRescalingCounts dest = c12 :=
    Function.update_same dest c12 s.plvRescalingCounts
  have hmain : multiplyOp threshold dest src1 src2 s =
      (if minCoeff A < 0 then none
       else if minCoeff A = 0 then some s2mid
       else some (rescalePLV threshold dest
         (rescalingCount threshold (minCoeff A)) s2mid)) := by
    simp only [multiplyOp, rescalePLVIfNeeded, hs2mid, hmidplv, hA, hc12,
      Function.update_same]
  rw [if_neg (not_lt.mpr hminA)] at hmain
  by_cases hz : minCoeff A = 0
  · rw [if_pos hz] at hmain
    refine ⟨0, s2mid, hmain, ?_, ?_, fun _ => rfl, ?_, ?_⟩
    · rw [hmidplv, pow_zero, inv_one, one_smul]
    · rw [hmidcount]; simp
    · intro hne hn
      obtain ⟨i, j, hij⟩ := exists_minCoeff_eq hn A
      exact absurd (hij.symm.trans hz) (hne i j)
    · rw [hmidplv, hmidcount]
      have := true_value_product threshold (ne_of_gt ht0)
        (s.plvRescalingCounts src1) (s.plvRescalingCounts src2) 0
        (s.plvs src1) (s.plvs src2)
      simpa using this
  · have hpos : 0 < minCoeff A := lt_of_le_of_ne hminA (Ne.symm hz)
    rw [if_neg hz] at hmain
    set k : ℕ := rescalingCount threshold (minCoeff A) with hk
    have hkfind : k = Nat.find (rescalingCount_exists ht0 ht1 hpos) := by
      rw [hk, rescalingCount, dif_pos ⟨ht0, ht1, hpos⟩]
    have hfinalplv : (rescalePLV threshold dest k s2mid).plvs dest =
        (threshold ^ k)⁻¹ • A := by
      rw [rescalePLV]
      by_cases hk0 : k = 0
      · rw [if_pos hk0, hk0, hmidplv, pow_zero, inv_one, one_smul]
      · rw [if_neg hk0]
        dsimp only
        simp only [Function.update_same]
    have hfinalcount : (rescalePLV threshold dest k s2mid).plvRescalingCounts dest =
        c12 + k := by
      rw [rescalePLV]
      by_cases hk0 : k = 0
      · rw [if_pos hk0, hk0, hmidcount]; simp
      · rw [if_neg hk0]
        dsimp only
        simp only [Function.update_same]
    refine ⟨k, rescalePLV threshold dest k s2mid, hmain, hfinalplv, hfinalcount, ?_, ?_, ?_⟩
    · rintro ⟨i, j, hij⟩
      have hAij : A i j = 0 := hij
      have hle : minCoeff A ≤ 0 := hAij ▸ minCoeff_le j.pos A i j
      exact absurd (le_antisymm hle hminA) hz
    · intro _ _
      constructor
      · show threshold ≤ minCoeff ((threshold ^ k)⁻¹ • A)
        rw [minCoeff_smul _ (inv_nonneg.mpr (le_of_lt (pow_pos ht0 k))) A,
          inv_mul_eq_div, hkfind]
        exact Nat.find_spec (rescalingCount_exists ht0 ht1 hpos)
      · intro j hj
        have hj2 : threshold ≤ minCoeff A / threshold ^ j := by
          have := hj
          rwa [Set.mem_setOf_eq, minCoeff_smul _
            (inv_nonneg.mpr (le_of_lt (pow_pos ht0 j))) A, inv_mul_eq_div] at this
        rw [hkfind]
        exact Nat.find_min' (rescalingCount_exists ht0 ht1 hpos) hj2
    · rw [hfinalplv, hfinalcount]
      exact true_value_product threshold (ne_of_gt ht0) _ _ k (s.plvs src1) (s.plvs src2)

/-- A concrete engine state whose slots hold entries `1/2` with rescaling
counters 0: multiplying slots 0 and 1 (threshold `1/2`) yields minimum
entry `1/4 < threshold` and forces one rescaling step. -/
def stateC2 : GPEngineState ℚ 2 1 where
  plvs := fun _ => Matrix.of (fun _ _ => (1/2 : ℚ))
  plvRescalingCounts := fun _ => 0
  branchLengths := fun _ => 1
  logLikelihoods := fun _ => 0
  q := fun _ => 1
  logMarginalLikelihood := 0

/-- C2 counterexample: after `Multiply(dst 0, src 0, src 1)` on
`stateC2` with threshold `1/2`, the stored dst is the constant matrix
`1/2` with rescaling counter 1, so `stored · threshold^(−c)` is the
constant matrix `1`, while the elementwise product of the srcs' values
`stored · threshold^(−c)` is the constant matrix `1/4`: the claim's
"true value" identity fails (the code preserves
`stored · threshold^(+c)` instead, cf. `LogRescalingFor`). -/
theorem C2_counterexample :
    (multiplyOp (1/2 : ℚ) 0 0 1 stateC2).isSome = true ∧
    ¬ ((1/2 : ℚ) ^ (-(((multiplyOp (1/2 : ℚ) 0 0 1 stateC2).getD stateC2).plvRescalingCounts 0)) •
        ((multiplyOp (1/2 : ℚ) 0 0 1 stateC2).getD stateC2).plvs 0 =
      Matrix.of (fun i j =>
        ((1/2 : ℚ) ^ (-(stateC2.plvRescalingCounts 0)) • stateC2.plvs 0) i j *
        ((1/2 : ℚ) ^ (-(stateC2.plvRescalingCounts 1)) • stateC2.plvs 1) i j)) := by
  have hmc : minCoeff (Matrix.of fun i j => stateC2.plvs 0 i j * stateC2.plvs 1 i j) =
      1/4 := by
    rw [minCoeff, dif_pos Nat.one_pos]
    have hconst : (fun p : Fin 4 × Fin 1 =>
        (Matrix.of fun i j => stateC2.plvs 0 i j * stateC2.plvs 1 i j) p.1 p.2) =
        fun _ => (1/4 : ℚ) := by
      funext p
      norm_num [stateC2, Matrix.of_apply]
    rw [hconst]
    exact Finset.inf'_const _ _
  have hrc : rescalingCount (1/2 : ℚ) (1/4) = 1 := by
    rw [rescalingCount, dif_pos (by norm_num)]
    rw [Nat.find_eq_iff]
    refine ⟨by norm_num, ?_⟩
    intro k hk
    interval_cases k
    norm_num
  have hval : multiplyOp (1/2 : ℚ) 0 0 1 stateC2 =
      some (rescalePLV (1/2 : ℚ) 0 1
        { stateC2 with
          plvs := Function.update stateC2.plvs 0
            (Matrix.of fun i j => stateC2.plvs 0 i j * stateC2.plvs 1 i j)
          plvRescalingCounts := Function.update stateC2.plvRescalingCounts 0
            (stateC2.plvRescalingCounts 0 + stateC2.plvRescalingCounts 1) }) := by
    simp only [multiplyOp, rescalePLVIfNeeded, Function.update_same, hmc, hrc]
    norm_num
  constructor
  · rw [hval]; rfl
  · rw [hval, Option.getD_some, rescalePLV, if_neg one_ne_zero]
    intro h
    have hentry := congrFun (congrFun h 0) 0
    simp only [Matrix.smul_apply, Matrix.of_apply, Function.update_same,
      smul_eq_mul, stateC2] at hentry
    norm_num at hentry

theorem C2_witness :
    (0 : ℚ) < 1/2 ∧ (1/2 : ℚ) < 1 ∧
    (∀ i j, 0 ≤ stateC2.plvs 0 i j) ∧ (∀ i j, 0 ≤ stateC2.plvs 1 i j) ∧
    (∃ k : ℕ, ∃ s2, multiplyOp (1/2 : ℚ) 0 0 1 stateC2 = some s2 ∧
      s2.plvs 0 = ((1/2 : ℚ) ^ k)⁻¹ •
        Matrix.of (fun i j => stateC2.plvs 0 i j * stateC2.plvs 1 i j) ∧
      s2.plvRescalingCounts 0 =
        stateC2.plvRescalingCounts 0 + stateC2.plvRescalingCounts 1 + k ∧
      ((∃ i j, stateC2.plvs 0 i j * stateC2.plvs 1 i j = 0) → k = 0) ∧
      ((∀ i j, stateC2.plvs 0 i j * stateC2.plvs 1 i j ≠ 0) → 0 < 1 →
        IsLeast {j : ℕ | (1/2 : ℚ) ≤ minCoeff (((1/2 : ℚ) ^ j)⁻¹ •
          Matrix.of (fun a b => stateC2.plvs 0 a b * stateC2.plvs 1 a b))} k) ∧
      (1/2 : ℚ) ^ s2.plvRescalingCounts 0 • s2.plvs 0 =
        Matrix.of (fun i j =>
          ((1/2 : ℚ) ^ stateC2.plvRescalingCounts 0 • stateC2.plvs 0) i j *
          ((1/2 : ℚ) ^ stateC2.plvRescalingCounts 1 • stateC2.plvs 1) i j)) :=
  ⟨by norm_num, by norm_num, by intro i j; norm_num [stateC2],
    by intro i j; norm_num [stateC2],
    C2_multiply_amended (1/2) 0 0 1 stateC2 (by norm_num) (by norm_num)
      (by intro i j; norm_num [stateC2]) (by intro i j; norm_num [stateC2])⟩

/-- Modelled from the spec: `NumericalUtils::LogSum` — declared in
numerical_utils.hpp as "Return log(sum_i exp(vec(i)))"; its
implementation file is not under src/.  Here over the index range
`[start, stop)` of a vector. -/
noncomputable def logSum (v : ℕ → ℝ) (start stop : ℕ) : ℝ :=
  Real.log (∑ i ∈ Finset.Ico start stop, Real.exp (v i))

/-- `GPEngine::operator()(const GPOperations::UpdateSBNProbabilities&)`
(gp_engine.cpp 103-115): with `range_length = stop - start`, a
single-element range sets `q_(start) = 1` and returns; otherwise the
segment `log_likelihoods_[start..stop)` is normalised in place by
subtracting `LogSum` of the segment, and `q_` over the range becomes its
elementwise exponential. -/
noncomputable def updateSBNProbabilities {m n : ℕ} (start stop : ℕ)
    (s : GPEngineState ℝ m n) : GPEngineState ℝ m n :=
  let rangeLength := stop - start
  if rangeLength = 1 then
    { s with q := Function.update s.q start 1 }
  else
    let logNorm := logSum s.logLikelihoods start stop
    { s with
      logLikelihoods := fun i =>
        if start ≤ i ∧ i < stop then s.logLikelihoods i - logNorm
        else s.logLikelihoods i
      q := fun i =>
        if start ≤ i ∧ i < stop then Real.exp (s.logLikelihoods i - logNorm)
        else s.q i }

/-- C4: after `UpdateSBNProbabilities(start, stop)` with `stop > start`:
a single-element range forces `q[start] = 1`; otherwise each `q[i]` for
`i ∈ [start, stop)` equals `exp(log_likelihoods[i] − LogSum)`; in both
cases the entries of `q` over `[start, stop)` sum to 1 in exact real
arithmetic. -/
theorem C4_update_sbn_probabilities {m n : ℕ} (start stop : ℕ)
    (s : GPEngineState ℝ m n) (h : start < stop) :
    ((stop - start = 1 → (updateSBNProbabilities start stop s).q start = 1) ∧
      (1 < stop - start → ∀ i, start ≤ i → i < stop →
        (updateSBNProbabilities start stop s).q i =
          Real.exp (s.logLikelihoods i - logSum s.logLikelihoods start stop))) ∧
    (∑ i ∈ Finset.Ico start stop, (updateSBNProbabilities start stop s).q i) = 1 := by
  by_cases h1 : stop - start = 1
  · have hstop : stop = start + 1 := by omega
    refine ⟨⟨fun _ => ?_, fun hgt => absurd h1 (by omega)⟩, ?_⟩
    · simp [updateSBNProbabilities, h1, Function.update_same]
    · subst hstop
      rw [Finset.sum_Ico_eq_sum_range]
      simp [updateSBNProbabilities, Function.update_same]
  · have hS : (0 : ℝ) < ∑ j ∈ Finset.Ico start stop, Real.exp (s.logLikelihoods j) :=
      Finset.sum_pos (fun j _ => Real.exp_pos _) (Finset.nonempty_Ico.mpr h)
    have hq : ∀ i, start ≤ i → i < stop →
        (updateSBNProbabilities start stop s).q i =
          Real.exp (s.logLikelihoods i - logSum s.logLikelihoods start stop) := by
      intro i hi1 hi2
      simp [updateSBNProbabilities, h1, hi1, hi2]
    refine ⟨⟨fun heq => absurd heq h1, fun _ => hq⟩, ?_⟩
    have hsum : ∀ i ∈ Finset.Ico start stop,
        (updateSBNProbabilities start stop s).q i =
          Real.exp (s.logLikelihoods i) /
            (∑ j ∈ Finset.Ico start stop, Real.exp (s.logLikelihoods j)) := by
      intro i hi
      obtain ⟨hi1, hi2⟩ := Finset.mem_Ico.mp hi
      rw [hq i hi1 hi2, logSum, Real.exp_sub, Real.exp_log hS]
    rw [Finset.sum_congr rfl hsum, ← Finset.sum_div, div_self (ne_of_gt hS)]

/-- C10: the frame of `UpdateSBNProbabilities`: with a multi-element
range it rewrites `log_likelihoods[start..stop)` in place, subtracting
the log-normaliser from every entry in the range, and leaves
`log_likelihoods` outside the range, `q` outside the range, the PLVs,
the rescaling counters, the branch lengths and the running marginal
likelihood unchanged; with a single-element range `log_likelihoods` is
untouched entirely and only `q[start]` changes. -/
theorem C10_update_sbn_probabilities_frame {m n : ℕ} (start stop : ℕ)
    (s : GPEngineState ℝ m n) :
    (1 < stop - start →
      (∀ i, start ≤ i → i < stop →
        (updateSBNProbabilities start stop s).logLikelihoods i =
          s.logLikelihoods i - logSum s.logLikelihoods start stop) ∧
      (∀ i, ¬ (start ≤ i ∧ i < stop) →
        (updateSBNProbabilities start stop s).logLikelihoods i = s.logLikelihoods i ∧
        (updateSBNProbabilities start stop s).q i = s.q i)) ∧
    (stop - start = 1 →
      (updateSBNProbabilities start stop s).logLikelihoods = s.logLikelihoods ∧
      (∀ i, i ≠ start → (updateSBNProbabilities start stop s).q i = s.q i)) ∧
    (updateSBNProbabilities start stop s).plvs = s.plvs ∧
    (updateSBNProbabilities start stop s).plvRescalingCounts = s.plvRescalingCounts ∧
    (updateSBNProbabilities start stop s).branchLengths = s.branchLengths ∧
    (updateSBNProbabilities start stop s).logMarginalLikelihood =
      s.logMarginalLikelihood := by
  refine ⟨?_, ?_, ?_, ?_, ?_, ?_⟩
  · intro hgt
    have h1 : ¬ stop - start = 1 := by omega
    constructor
    · intro i hi1 hi2
      simp [updateSBNProbabilities, h1, hi1, hi2]
    · intro i hi
      constructor <;> simp [updateSBNProbabilities, h1, hi]
  · intro h1
    refine ⟨?_, ?_⟩
    · simp [updateSBNProbabilities, h1]
    · intro i hi
      simp [updateSBNProbabilities, h1, Function.update_noteq hi]
  · by_cases h1 : stop - start = 1 <;> simp [updateSBNProbabilities, h1]
  · by_cases h1 : stop - start = 1 <;> simp [updateSBNProbabilities, h1]
  · by_cases h1 : stop - start = 1 <;> simp [updateSBNProbabilities, h1]
  · by_cases h1 : stop - start = 1 <;> simp [updateSBNProbabilities, h1]

/-- A concrete engine state over `ℝ` used by the witnesses of the
`UpdateSBNProbabilities` theorems. -/
def realState : GPEngineState ℝ 2 1 where
  plvs := fun _ => Matrix.of (fun _ _ => 0)
  plvRescalingCounts := fun _ => 0
  branchLengths := fun _ => 1
  logLikelihoods := fun _ => 0
  q := fun _ => 0
  logMarginalLikelihood := 0

theorem C4_witness :
    (0 : ℕ) < 2 ∧
    ((((2 : ℕ) - 0 = 1 → (updateSBNProbabilities 0 2 realState).q 0 = 1) ∧
      (1 < (2 : ℕ) - 0 → ∀ i, 0 ≤ i → i < 2 →
        (updateSBNProbabilities 0 2 realState).q i =
          Real.exp (realState.logLikelihoods i - logSum realState.logLikelihoods 0 2))) ∧
    (∑ i ∈ Finset.Ico 0 2, (updateSBNProbabilities 0 2 realState).q i) = 1) :=
  ⟨by norm_num, C4_update_sbn_probabilities 0 2 realState (by norm_num)⟩

theorem C10_witness :
    (1 < (2 : ℕ) - 0) ∧
    ((∀ i, 0 ≤ i → i < 2 →
        (updateSBNProbabilities 0 2 realState).logLikelihoods i =
          realState.logLikelihoods i - logSum realState.logLikelihoods 0 2) ∧
      (∀ i, ¬ ((0 : ℕ) ≤ i ∧ i < 2) →
        (updateSBNProbabilities 0 2 realState).logLikelihoods i =
          realState.logLikelihoods i ∧
        (updateSBNProbabilities 0 2 realState).q i = realState.q i)) ∧
    (updateSBNProbabilities 0 2 realState).plvs = realState.plvs ∧
    (updateSBNProbabilities 0 2 realState).plvRescalingCounts =
      realState.plvRescalingCounts ∧
    (updateSBNProbabilities 0 2 realState).branchLengths = realState.branchLengths ∧
    (updateSBNProbabilities 0 2 realState).logMarginalLikelihood =
      realState.logMarginalLikelihood := by
  have h := C10_update_sbn_probabilities_frame 0 2 realState
  exact ⟨by norm_num, h.1 (by norm_num), h.2.2.1, h.2.2.2.1, h.2.2.2.2.1, h.2.2.2.2.2⟩

/-!
sbn_probability.cpp.  The `sbn_parameters` / counts vectors are embedded
as functions `ℕ → ℚ`.  An indexer representation of a topology is the
pair of its per-rooting rootsplit parameter indices and per-rooting PCSP
parameter-index lists; the source keeps these as two parallel vectors
whose lengths are asserted equal to `edge_count` (fatal otherwise), which
the embedding pairs positionally with `zip`.
-/

/-- `IncrementBy` (sbn_probability.cpp 14-18): `vec[idx] += value` for
every index in the list. -/
def incrementBy (vec : ℕ → ℚ) (indices : List ℕ) (value : ℚ) : ℕ → ℚ :=
  indices.foldl (fun v idx => Function.update v idx (v idx + value)) vec

/-- `IncrementBy` on an index-vector-vector (sbn_probability.cpp 21-26). -/
def incrementByVV (vec : ℕ → ℚ) (indexVectorVector : List (List ℕ)) (value : ℚ) :
    ℕ → ℚ :=
  indexVectorVector.foldl (fun v indices => incrementBy v indices value) vec

/-- `IncrementBy` with a vector of values (sbn_probability.cpp 30-37):
`vec[indices[i]] += values[i]`; the source asserts the two lists have
equal length (fatal otherwise). -/
def incrementByValues (vec : ℕ → ℚ) (indices : List ℕ) (values : List ℚ) : ℕ → ℚ :=
  (indices.zip values).foldl (fun v p => Function.update v p.1 (v p.1 + p.2)) vec

/-- `IncrementBy` of an index-vector-vector with a vector of values
(sbn_probability.cpp 41-48). -/
def incrementByVVValues (vec : ℕ → ℚ) (indexVectorVector : List (List ℕ))
    (values : List ℚ) : ℕ → ℚ :=
  (indexVectorVector.zip values).foldl (fun v p => incrementBy v p.1 p.2) vec

/-- `ProductOf` (sbn_probability.cpp 56-63): multiply `vec[idx]` into the
running result for every index, starting from `starting_value`. -/
def ProductOf (vec : ℕ → ℚ) (indices : List ℕ) (startingValue : ℚ) : ℚ :=
  indices.foldl (fun result idx => result * vec idx) startingValue

/-- `ProbabilityNormalizeRange` (sbn_probability.cpp 65-69): divide the
segment `[start, stop)` of the vector by its sum. -/
def probabilityNormalizeRange (vec : ℕ → ℚ) (range : ℕ × ℕ) : ℕ → ℚ :=
  fun i =>
    if range.1 ≤ i ∧ i < range.2 then
      vec i / (∑ j ∈ Finset.Ico range.1 range.2, vec j)
    else vec i

/-- `ProbabilityNormalizeParams` (sbn_probability.cpp 72-78): normalise
the rootsplit block `[0, rootsplit_count)` and then every parent range. -/
def probabilityNormalizeParams (vec : ℕ → ℚ) (rootsplitCount : ℕ)
    (parentRanges : List (ℕ × ℕ)) : ℕ → ℚ :=
  parentRanges.foldl probabilityNormalizeRange
    (probabilityNormalizeRange vec (0, rootsplitCount))

/-- `AccumulateCounts` (sbn_probability.cpp 93-105): zero the counts and,
for every topology (indexer representation with an integer count),
increment at its rootsplit indices and at every PCSP index list by the
topology count. -/
def accumulateCounts (counter : List ((List ℕ × List (List ℕ)) × ℕ)) : ℕ → ℚ :=
  counter.foldl
    (fun counts p => incrementByVV (incrementBy counts p.1.1 (p.2 : ℚ)) p.1.2 (p.2 : ℚ))
    (fun _ => 0)

/-- `SBNProbability::SimpleAverage` (sbn_probability.cpp 107-114):
accumulate the counts and probability-normalise per range. -/
def simpleAverage (counter : List ((List ℕ × List (List ℕ)) × ℕ))
    (rootsplitCount : ℕ) (parentRanges : List (ℕ × ℕ)) : ℕ → ℚ :=
  probabilityNormalizeParams (accumulateCounts counter) rootsplitCount parentRanges

/-- The per-topology `q_weights` assignment of the EM loop
(sbn_probability.cpp 147-160): for each rooting position, the SBN
probability of the topology rooted there,
`ProductOf(sbn_parameters, pcss_vector, sbn_parameters[rootsplit])`. -/
def emQWeights (sbn : ℕ → ℚ) (rootsplits : List ℕ) (pcss : List (List ℕ)) : List ℚ :=
  (rootsplits.zip pcss).map (fun rp => ProductOf sbn rp.2 (sbn rp.1))

/-- One iteration of the EM loop (sbn_probability.cpp 139-168): for each
topology compute the `q_weights`, divide by their sum, multiply by the
topology count, and increment `m_bar` at the rootsplit indices and at
the PCSP index lists by those weights; then set `sbn_parameters` to the
per-range normalisation of `m_bar + alpha * m_tilde`. -/
def emStep (counter : List ((List ℕ × List (List ℕ)) × ℕ)) (rootsplitCount : ℕ)
    (parentRanges : List (ℕ × ℕ)) (alpha : ℚ) (mTilde : ℕ → ℚ) (sbn : ℕ → ℚ) :
    ℕ → ℚ :=
  let mBar := counter.foldl
    (fun mBar p =>
      let qWeights := emQWeights sbn p.1.1 p.1.2
      let qScaled := qWeights.map (fun w => w / qWeights.sum * (p.2 : ℚ))
      incrementByVVValues (incrementByValues mBar p.1.1 qScaled) p.1.2 qScaled)
    (fun _ => 0)
  probabilityNormalizeParams (fun i => mBar i + alpha * mTilde i) rootsplitCount
    parentRanges

/-- `SBNProbability::ExpectationMaximization` (sbn_probability.cpp
116-170): asserts the counter is nonempty (fatal otherwise), computes
`m_tilde = AccumulateCounts(...)`, starts from its per-range
normalisation (the SimpleAverage estimate), and runs `em_loop_count`
iterations of `emStep`. -/
def expectationMaximization (counter : List ((List ℕ × List (List ℕ)) × ℕ))
    (rootsplitCount : ℕ) (parentRanges : List (ℕ × ℕ)) (alpha : ℚ) :
    ℕ → ℕ → ℚ
  | 0 => probabilityNormalizeParams (accumulateCounts counter) rootsplitCount
      parentRanges
  | k + 1 => emStep counter rootsplitCount parentRanges alpha
      (accumulateCounts counter)
      (expectationMaximization counter rootsplitCount parentRanges alpha k)

/-- `SBNProbability::ProbabilityOf` (sbn_probability.cpp 172-186): sum
over the rootings of `ProductOf(sbn_parameters, pcss_vector,
sbn_parameters[rootsplit])`. -/
def probabilityOf (sbn : ℕ → ℚ) (rep : List ℕ × List (List ℕ)) : ℚ :=
  ((rep.1.zip rep.2).map (fun rp => ProductOf sbn rp.2 (sbn rp.1))).sum

theorem incrementBy_apply (indices : List ℕ) (vec : ℕ → ℚ) (value : ℚ) (i : ℕ) :
    incrementBy vec indices value i = vec i + value * (indices.count i : ℚ) := by
  induction indices generalizing vec with
  | nil => simp [incrementBy]
  | cons a t ih =>
    have hstep : incrementBy vec (a :: t) value i =
        incrementBy (Function.update vec a (vec a + value)) t value i := rfl
    rw [hstep, ih]
    by_cases hai : a = i
    · subst hai
      rw [Function.update_same, List.count_cons_self]
      push_cast
      ring
    · rw [Function.update_noteq (Ne.symm hai), List.count_cons_of_ne (fun h => hai h.symm)]

theorem incrementByVV_apply (ivv : List (List ℕ)) (vec : ℕ → ℚ) (value : ℚ) (i : ℕ) :
    incrementByVV vec ivv value i =
      vec i + value * ((ivv.map (fun l => (l.count i : ℚ))).sum) := by
  induction ivv generalizing vec with
  | nil => simp [incrementByVV]
  | cons a t ih =>
    have hstep : incrementByVV vec (a :: t) value i =
        incrementByVV (incrementBy vec a value) t value i := rfl
    rw [hstep, ih, incrementBy_apply]
    rw [List.map_cons, List.sum_cons]
    ring

theorem incrementByValues_pairs (pairs : List (ℕ × ℚ)) (vec : ℕ → ℚ) (i : ℕ) :
    pairs.foldl (fun v p => Function.update v p.1 (v p.1 + p.2)) vec i =
      vec i + (pairs.map (fun p => if p.1 = i then p.2 else 0)).sum := by
  induction pairs generalizing vec with
  | nil => simp
  | cons a t ih =>
    rw [List.foldl_cons, ih, List.map_cons, List.sum_cons]
    by_cases hai : a.1 = i
    · rw [if_pos hai, hai, Function.update_same]
      ring
    · rw [if_neg hai, Function.update_noteq (Ne.symm hai)]
      ring

theorem incrementByValues_apply (indices : List ℕ) (values : List ℚ) (vec : ℕ → ℚ)
    (i : ℕ) :
    incrementByValues vec indices values i =
      vec i + ((indices.zip values).map (fun p => if p.1 = i then p.2 else 0)).sum :=
  incrementByValues_pairs (indices.zip values) vec i

theorem incrementByVVValues_pairs (pairs : List (List ℕ × ℚ)) (vec : ℕ → ℚ) (i : ℕ) :
    pairs.foldl (fun v p => incrementBy v p.1 p.2) vec i =
      vec i + (pairs.map (fun p => p.2 * (p.1.count i : ℚ))).sum := by
  induction pairs generalizing vec with
  | nil => simp
  | cons a t ih =>
    rw [List.foldl_cons, ih, incrementBy_apply, List.map_cons, List.sum_cons]
    ring

theorem incrementByVVValues_apply (ivv : List (List ℕ)) (values : List ℚ)
    (vec : ℕ → ℚ) (i : ℕ) :
    incrementByVVValues vec ivv values i =
      vec i + ((ivv.zip values).map (fun p => p.2 * (p.1.count i : ℚ))).sum :=
  incrementByVVValues_pairs (ivv.zip values) vec i

theorem ProductOf_eq (vec : ℕ → ℚ) (indices : List ℕ) (startingValue : ℚ) :
    ProductOf vec indices startingValue = startingValue * (indices.map vec).prod := by
  induction indices generalizing startingValue with
  | nil => simp [ProductOf]
  | cons a t ih =>
    have hstep : ProductOf vec (a :: t) startingValue =
        ProductOf vec t (startingValue * vec a) := rfl
    rw [hstep, ih, List.map_cons, List.prod_cons]
    ring

theorem accumulateCounts_foldl (counter : List ((List ℕ × List (List ℕ)) × ℕ))
    (init : ℕ → ℚ) (i : ℕ) :
    counter.foldl
      (fun counts p =>
        incrementByVV (incrementBy counts p.1.1 (p.2 : ℚ)) p.1.2 (p.2 : ℚ)) init i =
      init i + (counter.map (fun p => (p.2 : ℚ) *
        ((p.1.1.count i : ℚ) + (p.1.2.map (fun l => (l.count i : ℚ))).sum))).sum := by
  induction counter generalizing init with
  | nil => simp
  | cons a t ih =>
    rw [List.foldl_cons, ih, incrementByVV_apply, incrementBy_apply,
      List.map_cons, List.sum_cons]
    ring

theorem accumulateCounts_apply (counter : List ((List ℕ × List (List ℕ)) × ℕ))
    (i : ℕ) :
    accumulateCounts counter i =
      (counter.map (fun p => (p.2 : ℚ) *
        ((p.1.1.count i : ℚ) + (p.1.2.map (fun l => (l.count i : ℚ))).sum))).sum := by
  rw [accumulateCounts, accumulateCounts_foldl]
  simp

theorem emStep_foldl_apply (sbn : ℕ → ℚ)
    (counter : List ((List ℕ × List (List ℕ)) × ℕ)) (init : ℕ → ℚ) (i : ℕ) :
    counter.foldl
      (fun mBar p =>
        incrementByVVValues
          (incrementByValues mBar p.1.1
            ((emQWeights sbn p.1.1 p.1.2).map
              (fun w => w / (emQWeights sbn p.1.1 p.1.2).sum * (p.2 : ℚ))))
          p.1.2
          ((emQWeights sbn p.1.1 p.1.2).map
            (fun w => w / (emQWeights sbn p.1.1 p.1.2).sum * (p.2 : ℚ)))) init i =
      init i + (counter.map (fun p =>
        ((p.1.1.zip ((emQWeights sbn p.1.1 p.1.2).map
            (fun w => w / (emQWeights sbn p.1.1 p.1.2).sum * (p.2 : ℚ)))).map
          (fun rp => if rp.1 = i then rp.2 else 0)).sum +
        ((p.1.2.zip ((emQWeights sbn p.1.1 p.1.2).map
            (fun w => w / (emQWeights sbn p.1.1 p.1.2).sum * (p.2 : ℚ)))).map
          (fun rp => rp.2 * (rp.1.count i : ℚ))).sum)).sum := by
  induction counter generalizing init with
  | nil => simp
  | cons a t ih =>
    rw [List.foldl_cons, ih, incrementByVVValues_apply, incrementByValues_apply,
      List.map_cons, List.sum_cons]
    ring

theorem emTopology_contribution_eq (sbn : ℕ → ℚ) (r : List ℕ) (q : List (List ℕ))
    (c : ℕ) (hlen : r.length = q.length) (i : ℕ) :
    ((r.zip ((emQWeights sbn r q).map
        (fun w => w / (emQWeights sbn r q).sum * (c : ℚ)))).map
      (fun rp => if rp.1 = i then rp.2 else 0)).sum +
    ((q.zip ((emQWeights sbn r q).map
        (fun w => w / (emQWeights sbn r q).sum * (c : ℚ)))).map
      (fun rp => rp.2 * (rp.1.count i : ℚ))).sum =
    ((r.zip q).map (fun rp =>
      (c : ℚ) * (sbn rp.1 * (rp.2.map sbn).prod /
        ((r.zip q).map (fun rp2 => sbn rp2.1 * (rp2.2.map sbn).prod)).sum) *
      ((if rp.1 = i then 1 else 0) + (rp.2.count i : ℚ)))).sum := by
  have hr : (r.zip q).map Prod.fst = r := List.map_fst_zip r q (le_of_eq hlen)
  have hq : (r.zip q).map Prod.snd = q := List.map_snd_zip r q (ge_of_eq hlen)
  have hS : (emQWeights sbn r q).sum =
      ((r.zip q).map (fun rp2 => sbn rp2.1 * (rp2.2.map sbn).prod)).sum := by
    rw [emQWeights]
    congr 1
    exact List.map_congr_left (fun rp _ => ProductOf_eq sbn rp.2 (sbn rp.1))
  have hscale : (emQWeights sbn r q).map
      (fun w => w / (emQWeights sbn r q).sum * (c : ℚ)) =
      (r.zip q).map (fun rp =>
        ProductOf sbn rp.2 (sbn rp.1) / (emQWeights sbn r q).sum * (c : ℚ)) := by
    rw [emQWeights, List.map_map]
    rfl
  rw [hscale]
  rw [show r.zip ((r.zip q).map (fun rp =>
        ProductOf sbn rp.2 (sbn rp.1) / (emQWeights sbn r q).sum * (c : ℚ))) =
      ((r.zip q).map Prod.fst).zip ((r.zip q).map (fun rp =>
        ProductOf sbn rp.2 (sbn rp.1) / (emQWeights sbn r q).sum * (c : ℚ))) from by
    rw [hr]]
  rw [show q.zip ((r.zip q).map (fun rp =>
        ProductOf sbn rp.2 (sbn rp.1) / (emQWeights sbn r q).sum * (c : ℚ))) =
      ((r.zip q).map Prod.snd).zip ((r.zip q).map (fun rp =>
        ProductOf sbn rp.2 (sbn rp.1) / (emQWeights sbn r q).sum * (c : ℚ))) from by
    rw [hq]]
  rw [List.zip_map' Prod.fst _ (r.zip q), List.zip_map' Prod.snd _ (r.zip q)]
  rw [List.map_map, List.map_map]
  rw [← List.sum_map_add]
  congr 1
  apply List.map_congr_left
  intro rp _
  simp only [Function.comp_apply]
  rw [ProductOf_eq, hS]
  by_cases hrp : rp.1 = i
  · rw [if_pos hrp, if_pos hrp]
    ring
  · rw [if_neg hrp, if_neg hrp]
    ring

/-- C7: `ExpectationMaximization` first sets `sbn_parameters` to the
per-range normalisation of the simple-average counts `m_tilde` (so with
`em_loop_count = 0` it returns exactly the SimpleAverage estimate); each
iteration computes, for every topology, rooting weights proportional to
`sbn_parameters[rootsplit] * ∏ sbn_parameters[pcsp]` over that rooting's
PCSPs, normalised over the topology's rootings and scaled by the
topology's count, accumulates them into `m_bar` over all topologies, and
sets `sbn_parameters` to the per-range normalisation of
`m_bar + alpha * m_tilde`.  The hypotheses mirror the source's
assertions: a nonempty topology counter, and per-topology parallel
rootsplit/PCSP vectors of equal length. -/
theorem C7_expectation_maximization
    (counter : List ((List ℕ × List (List ℕ)) × ℕ)) (rootsplitCount : ℕ)
    (parentRanges : List (ℕ × ℕ)) (alpha : ℚ)
    (hne : counter ≠ [])
    (hlen : ∀ p ∈ counter, p.1.1.length = p.1.2.length) :
    expectationMaximization counter rootsplitCount parentRanges alpha 0 =
      simpleAverage counter rootsplitCount parentRanges ∧
    (∀ k, expectationMaximization counter rootsplitCount parentRanges alpha (k + 1) =
      probabilityNormalizeParams
        (fun i =>
          (counter.map (fun p =>
            ((p.1.1.zip p.1.2).map (fun rp =>
              (p.2 : ℚ) *
                (expectationMaximization counter rootsplitCount parentRanges alpha k
                      rp.1 *
                    (rp.2.map (expectationMaximization counter rootsplitCount
                      parentRanges alpha k)).prod /
                  ((p.1.1.zip p.1.2).map (fun rp2 =>
                    expectationMaximization counter rootsplitCount parentRanges alpha k
                        rp2.1 *
                      (rp2.2.map (expectationMaximization counter rootsplitCount
                        parentRanges alpha k)).prod)).sum) *
                ((if rp.1 = i then 1 else 0) + (rp.2.count i : ℚ)))).sum)).sum +
          alpha * (counter.map (fun p => (p.2 : ℚ) *
            ((p.1.1.count i : ℚ) + (p.1.2.map (fun l => (l.count i : ℚ))).sum))).sum)
        rootsplitCount parentRanges) := by
  refine ⟨rfl, ?_⟩
  intro k
  show emStep counter rootsplitCount parentRanges alpha (accumulateCounts counter)
      (expectationMaximization counter rootsplitCount parentRanges alpha k) = _
  simp only [emStep]
  refine congrArg (fun v => probabilityNormalizeParams v rootsplitCount parentRanges) ?_
  funext i
  rw [emStep_foldl_apply]
  have hmap : counter.map (fun p =>
      ((p.1.1.zip ((emQWeights (expectationMaximization counter rootsplitCount
          parentRanges alpha k) p.1.1 p.1.2).map
          (fun w => w / (emQWeights (expectationMaximization counter rootsplitCount
            parentRanges alpha k) p.1.1 p.1.2).sum * (p.2 : ℚ)))).map
        (fun rp => if rp.1 = i then rp.2 else 0)).sum +
      ((p.1.2.zip ((emQWeights (expectationMaximization counter rootsplitCount
          parentRanges alpha k) p.1.1 p.1.2).map
          (fun w => w / (emQWeights (expectationMaximization counter rootsplitCount
            parentRanges alpha k) p.1.1 p.1.2).sum * (p.2 : ℚ)))).map
        (fun rp => rp.2 * (rp.1.count i : ℚ))).sum) =
      counter.map (fun p =>
        ((p.1.1.zip p.1.2).map (fun rp =>
          (p.2 : ℚ) *
            (expectationMaximization counter rootsplitCount parentRanges alpha k rp.1 *
                (rp.2.map (expectationMaximization counter rootsplitCount parentRanges
                  alpha k)).prod /
              ((p.1.1.zip p.1.2).map (fun rp2 =>
                expectationMaximization counter rootsplitCount parentRanges alpha k
                    rp2.1 *
                  (rp2.2.map (expectationMaximization counter rootsplitCount
                    parentRanges alpha k)).prod)).sum) *
            ((if rp.1 = i then 1 else 0) + (rp.2.count i : ℚ)))).sum) :=
    List.map_congr_left (fun p hp =>
      emTopology_contribution_eq _ p.1.1 p.1.2 p.2 (hlen p hp) i)
  rw [hmap, accumulateCounts_apply]
  ring

/-- A concrete one-topology counter used by the C7 witness. -/
def witnessCounter : List ((List ℕ × List (List ℕ)) × ℕ) := [(([0], [[1]]), 1)]

theorem C7_witness :
    (witnessCounter ≠ [] ∧ ∀ p ∈ witnessCounter, p.1.1.length = p.1.2.length) ∧
    (expectationMaximization witnessCounter 1 [(1, 2)] 0 0 =
        simpleAverage witnessCounter 1 [(1, 2)] ∧
      (∀ k, expectationMaximization witnessCounter 1 [(1, 2)] 0 (k + 1) =
        probabilityNormalizeParams
          (fun i =>
            (witnessCounter.map (fun p =>
              ((p.1.1.zip p.1.2).map (fun rp =>
                (p.2 : ℚ) *
                  (expectationMaximization witnessCounter 1 [(1, 2)] 0 k rp.1 *
                      (rp.2.map (expectationMaximization witnessCounter 1
                        [(1, 2)] 0 k)).prod /
                    ((p.1.1.zip p.1.2).map (fun rp2 =>
                      expectationMaximization witnessCounter 1 [(1, 2)] 0 k rp2.1 *
                        (rp2.2.map (expectationMaximization witnessCounter 1
                          [(1, 2)] 0 k)).prod)).sum) *
                  ((if rp.1 = i then 1 else 0) + (rp.2.count i : ℚ)))).sum)).sum +
            0 * (witnessCounter.map (fun p => (p.2 : ℚ) *
              ((p.1.1.count i : ℚ) +
                (p.1.2.map (fun l => (l.count i : ℚ))).sum))).sum)
          1 [(1, 2)])) :=
  ⟨⟨by decide, by decide⟩,
    C7_expectation_maximization witnessCounter 1 [(1, 2)] 0 (by decide) (by decide)⟩

/-- `EPS = std::numeric_limits<double>::epsilon() = 2^-52`
(numerical_utils.hpp 14). -/
def EPS : ℚ := 1 / 2 ^ 52

/-- Modelled from the spec: the spec's prescription for per-topology
products — computed "in log-space with LogAdd", with `q` values below
machine epsilon clamped to `−∞` in log-space.  Extensionally a clamped
factor contributes `exp(−∞) = 0`, so the prescribed product multiplies
each parameter clamped to zero when it is below `EPS`. -/
def specClampedProductOf (vec : ℕ → ℚ) (indices : List ℕ) (startingValue : ℚ) : ℚ :=
  indices.foldl (fun result idx => result * (if vec idx < EPS then 0 else vec idx))
    (if startingValue < EPS then 0 else startingValue)

/-- Modelled from the spec: `ProbabilityOf` as the spec's numerical
stability note prescribes it, with every per-rooting product clamped in
log-space. -/
def specProbabilityOf (sbn : ℕ → ℚ) (rep : List ℕ × List (List ℕ)) : ℚ :=
  ((rep.1.zip rep.2).map (fun rp => specClampedProductOf sbn rp.2 (sbn rp.1))).sum

/-- C8 counterexample: with every SBN parameter equal to `2^-53`
(positive but below machine epsilon `2^-52`), the source's `ProductOf`
(plain linear-space multiplication, sbn_probability.cpp 56-63) gives the
one-rooting topology `([0], [[1]])` probability `2^-106 ≠ 0`, while the
spec-prescribed log-space computation with sub-epsilon clamping gives 0:
the code does not compute per-topology products in log-space and does
not clamp sub-epsilon `q` values. -/
theorem C8_counterexample :
    probabilityOf (fun _ => 1 / 2 ^ 53) ([0], [[1]]) ≠
      specProbabilityOf (fun _ => 1 / 2 ^ 53) ([0], [[1]]) := by
  norm_num [probabilityOf, specProbabilityOf, ProductOf, specClampedProductOf, EPS]

/-- C8 (amended): per-topology products in `ProbabilityOf` and in the EM
rooting-weight computation are computed directly in linear space by
`ProductOf`: the product equals the starting value times the plain
product of the indexed parameters, with no log-space `LogAdd`
computation and no clamping of parameters below machine epsilon. -/
theorem C8_products_linear_space :
    (∀ (sbn : ℕ → ℚ) (indices : List ℕ) (startingValue : ℚ),
      ProductOf sbn indices startingValue = startingValue * (indices.map sbn).prod) ∧
    (∀ (sbn : ℕ → ℚ) (rep : List ℕ × List (List ℕ)),
      probabilityOf sbn rep =
        ((rep.1.zip rep.2).map (fun rp => sbn rp.1 * (rp.2.map sbn).prod)).sum) ∧
    (∀ (sbn : ℕ → ℚ) (rootsplits : List ℕ) (pcss : List (List ℕ)),
      emQWeights sbn rootsplits pcss =
        (rootsplits.zip pcss).map (fun rp => sbn rp.1 * (rp.2.map sbn).prod)) := by
  refine ⟨ProductOf_eq, ?_, ?_⟩
  · intro sbn rep
    rw [probabilityOf]
    congr 1
    exact List.map_congr_left (fun rp _ => ProductOf_eq sbn rp.2 (sbn rp.1))
  · intro sbn rootsplits pcss
    rw [emQWeights]
    exact List.map_congr_left (fun rp _ => ProductOf_eq sbn rp.2 (sbn rp.1))

/-!
gp_dag.cpp: `ProcessTrees` and the PCSP indexer (C6).  Bitset keys are
abstracted to a type `K` with decidable equality; the PCSP key
`parent + child` (bitset concatenation) and `Bitset::ChildSubsplit` are
abstract binary operations on `K`.  The `std::map`s are embedded as
association lists in insertion order.
-/

/-- `SafeInsert` (sugar): insert a key-value pair into a map, fatal
(`none`) when the key is already present. -/
def safeInsert {K V : Type} [DecidableEq K] (m : List (K × V)) (k : K) (v : V) :
    Option (List (K × V)) :=
  if k ∈ m.map Prod.fst then none else some (m ++ [(k, v)])

/-- The rootsplit loop of `GPDAG::ProcessTrees` (gp_dag.cpp 45-49):
`SafeInsert(indexer_, rootsplit, index); index++` over the observed
rootsplits. -/
def insertRootsplits {K : Type} [DecidableEq K] (indexer : List (K × ℕ)) (index : ℕ) :
    List K → Option (List (K × ℕ) × ℕ)
  | [] => some (indexer, index)
  | r :: rest => do
    let indexer2 ← safeInsert indexer r index
    insertRootsplits indexer2 (index + 1) rest

/-- The child loop of `GPDAG::ProcessTrees` (gp_dag.cpp 54-59):
`SafeInsert(indexer_, parent + child, index);
SafeInsert(index_to_child_, index, Bitset::ChildSubsplit(parent, child));
index++` over the observed children of one parent. -/
def insertChildren {K : Type} [DecidableEq K] (combine childSubsplit : K → K → K)
    (parent : K) (indexer : List (K × ℕ)) (indexToChild : List (ℕ × K)) (index : ℕ) :
    List K → Option (List (K × ℕ) × List (ℕ × K) × ℕ)
  | [] => some (indexer, indexToChild, index)
  | c :: rest => do
    let indexer2 ← safeInsert indexer (combine parent c) index
    let indexToChild2 ← safeInsert indexToChild index (childSubsplit parent c)
    insertChildren combine childSubsplit parent indexer2 indexToChild2 (index + 1) rest

/-- The PCSS loop of `GPDAG::ProcessTrees` (gp_dag.cpp 51-60):
`SafeInsert(parent_to_range_, parent, {index, index + child_counter.size()})`
followed by the child loop, over the observed parent subsplits. -/
def insertPCSSs {K : Type} [DecidableEq K] (combine childSubsplit : K → K → K)
    (indexer : List (K × ℕ)) (parentToRange : List (K × (ℕ × ℕ)))
    (indexToChild : List (ℕ × K)) (index : ℕ) :
    List (K × List K) →
      Option (List (K × ℕ) × List (K × (ℕ × ℕ)) × List (ℕ × K) × ℕ)
  | [] => some (indexer, parentToRange, indexToChild, index)
  | pc :: rest => do
    let parentToRange2 ← safeInsert parentToRange pc.1 (index, index + pc.2.length)
    let (indexer2, indexToChild2, index2) ←
      insertChildren combine childSubsplit pc.1 indexer indexToChild index pc.2
    insertPCSSs combine childSubsplit indexer2 parentToRange2 indexToChild2 index2 rest

/-- The result of `GPDAG::ProcessTrees`: the `indexer_`,
`parent_to_range_` and `index_to_child_` maps, the `rootsplits_` list,
and `gpcsp_count_`. -/
structure ProcessTreesResult (K : Type) where
  indexer : List (K × ℕ)
  rootsplits : List K
  parentToRange : List (K × (ℕ × ℕ))
  indexToChild : List (ℕ × K)
  gpcspCount : ℕ

/-- `GPDAG::ProcessTrees` (gp_dag.cpp 41-62), taking the iteration
orders of `RootsplitCounterOf` and `PCSSCounterOf` (maps, hence with
pairwise-distinct keys) as input lists. -/
def processTrees {K : Type} [DecidableEq K] (combine childSubsplit : K → K → K)
    (rootsplitCounter : List K) (pcssCounter : List (K × List K)) :
    Option (ProcessTreesResult K) := do
  let (indexer1, index1) ← insertRootsplits [] 0 rootsplitCounter
  let (indexer2, parentToRange, indexToChild, index2) ←
    insertPCSSs combine childSubsplit indexer1 [] [] index1 pcssCounter
  some ⟨indexer2, rootsplitCounter, parentToRange, indexToChild, index2⟩

/-- The contiguous ranges `[start, start+n1), [start+n1, start+n1+n2), …`
that `ProcessTrees` records in `parent_to_range_` for parents with
`n1, n2, …` observed children. -/
def rangesFrom (start : ℕ) : List ℕ → List (ℕ × ℕ)
  | [] => []
  | n :: rest => (start, start + n) :: rangesFrom (start + n) rest

theorem rangesFrom_lengths (ls : List ℕ) : ∀ start,
    (rangesFrom start ls).map (fun pr => pr.2 - pr.1) = ls := by
  induction ls with
  | nil => intro start; rfl
  | cons n rest ih =>
    intro start
    rw [rangesFrom, List.map_cons, ih]
    congr 1
    omega

theorem rangesFrom_mem_bounds (ls : List ℕ) : ∀ start pr,
    pr ∈ rangesFrom start ls → start ≤ pr.1 ∧ pr.1 ≤ pr.2 ∧ pr.2 ≤ start + ls.sum := by
  induction ls with
  | nil => intro start pr h; cases h
  | cons n rest ih =>
    intro start pr h
    rw [rangesFrom] at h
    rcases List.mem_cons.mp h with rfl | h
    · simp only [List.sum_cons]
      omega
    · have := ih (start + n) pr h
      simp only [List.sum_cons]
      omega

theorem rangesFrom_pairwise_disjoint (ls : List ℕ) : ∀ start,
    (rangesFrom start ls).Pairwise
      (fun a b => Disjoint (Finset.Ico a.1 a.2) (Finset.Ico b.1 b.2)) := by
  induction ls with
  | nil => intro start; exact List.Pairwise.nil
  | cons n rest ih =>
    intro start
    rw [rangesFrom]
    refine List.Pairwise.cons ?_ (ih (start + n))
    intro pr hpr
    have hb := rangesFrom_mem_bounds rest (start + n) pr hpr
    refine Finset.disjoint_left.mpr ?_
    intro x hx hx2
    have h1 := Finset.mem_Ico.mp hx
    have h2 := Finset.mem_Ico.mp hx2
    omega

theorem rangesFrom_union (ls : List ℕ) : ∀ start,
    ((rangesFrom start ls).map (fun pr => Finset.Ico pr.1 pr.2)).foldr (· ∪ ·) ∅ =
      Finset.Ico start (start + ls.sum) := by
  induction ls with
  | nil => intro start; simp [rangesFrom]
  | cons n rest ih =>
    intro start
    rw [rangesFrom, List.map_cons, List.foldr_cons, ih (start + n)]
    rw [List.sum_cons, Finset.Ico_union_Ico_eq_Ico]
    · congr 1
      omega
    · omega
    · omega

theorem range'_split (m s n : ℕ) :
    List.range' s (m + n) = List.range' s m ++ List.range' (s + m) n := by
  have h := List.range'_append s m n 1
  rw [one_mul] at h
  rw [Nat.add_comm m n, ← h]

theorem rangesFrom_length (ls : List ℕ) : ∀ start,
    (rangesFrom start ls).length = ls.length := by
  induction ls with
  | nil => intro start; rfl
  | cons n rest ih =>
    intro start
    rw [rangesFrom, List.length_cons, ih (start + n), List.length_cons]

theorem insertRootsplits_eq {K : Type} [DecidableEq K] (rs : List K) :
    ∀ (indexer : List (K × ℕ)) (index : ℕ),
      rs.Nodup → (∀ r ∈ rs, r ∉ indexer.map Prod.fst) →
      insertRootsplits indexer index rs =
        some (indexer ++ rs.zip (List.range' index rs.length), index + rs.length) := by
  induction rs with
  | nil => intro indexer index _ _; simp [insertRootsplits]
  | cons r rest ih =>
    intro indexer index hnd hfresh
    have hr : r ∉ indexer.map Prod.fst := hfresh r (List.mem_cons_self r rest)
    have hstep : insertRootsplits indexer index (r :: rest) =
        insertRootsplits (indexer ++ [(r, index)]) (index + 1) rest := by
      simp [insertRootsplits, safeInsert, hr]
    have hfresh2 : ∀ x ∈ rest, x ∉ (indexer ++ [(r, index)]).map Prod.fst := by
      intro x hx
      rw [List.map_append, List.mem_append]
      push_neg
      refine ⟨hfresh x (List.mem_cons_of_mem r hx), ?_⟩
      have hxr : x ≠ r := fun h => (List.nodup_cons.mp hnd).1 (h ▸ hx)
      simp [hxr]
    rw [hstep, ih (indexer ++ [(r, index)]) (index + 1) (List.Nodup.of_cons hnd) hfresh2]
    have hzip : (r :: rest).zip (List.range' index (r :: rest).length) =
        (r, index) :: rest.zip (List.range' (index + 1) rest.length) := by
      rw [List.length_cons, List.range'_succ]
      rfl
    rw [hzip]
    apply congrArg
    refine Prod.ext ?_ ?_
    · rw [List.append_assoc]
      rfl
    · dsimp only
      simp only [List.length_cons]
      omega

theorem insertChildren_eq {K : Type} [DecidableEq K] (combine childSubsplit : K → K → K)
    (parent : K) (children : List K) :
    ∀ (indexer : List (K × ℕ)) (indexToChild : List (ℕ × K)) (index : ℕ),
      (children.map (combine parent)).Nodup →
      (∀ c ∈ children, combine parent c ∉ indexer.map Prod.fst) →
      (∀ j ∈ indexToChild.map Prod.fst, j < index) →
      insertChildren combine childSubsplit parent indexer indexToChild index children =
        some (indexer ++ (children.map (combine parent)).zip
            (List.range' index children.length),
          indexToChild ++ (List.range' index children.length).zip
            (children.map (childSubsplit parent)),
          index + children.length) := by
  induction children with
  | nil => intro indexer indexToChild index _ _ _; simp [insertChildren]
  | cons c rest ih =>
    intro indexer indexToChild index hnd hfresh hlt
    have hc : combine parent c ∉ indexer.map Prod.fst :=
      hfresh c (List.mem_cons_self c rest)
    have hidx : index ∉ indexToChild.map Prod.fst :=
      fun h => lt_irrefl index (hlt index h)
    have hstep : insertChildren combine childSubsplit parent indexer indexToChild index
        (c :: rest) =
        insertChildren combine childSubsplit parent
          (indexer ++ [(combine parent c, index)])
          (indexToChild ++ [(index, childSubsplit parent c)]) (index + 1) rest := by
      simp [insertChildren, safeInsert, hc, hidx]
    have hnd2 : (rest.map (combine parent)).Nodup := by
      rw [List.map_cons] at hnd
      exact (List.nodup_cons.mp hnd).2
    have hfresh2 : ∀ x ∈ rest,
        combine parent x ∉ (indexer ++ [(combine parent c, index)]).map Prod.fst := by
      intro x hx
      rw [List.map_append, List.mem_append]
      push_neg
      refine ⟨hfresh x (List.mem_cons_of_mem c hx), ?_⟩
      have hxc : combine parent x ≠ combine parent c := by
        intro h
        rw [List.map_cons] at hnd
        exact (List.nodup_cons.mp hnd).1 (h ▸ List.mem_map_of_mem (combine parent) hx)
      simp [hxc]
    have hlt2 : ∀ j ∈ (indexToChild ++ [(index, childSubsplit parent c)]).map Prod.fst,
        j < index + 1 := by
      intro j hj
      rw [List.map_append, List.mem_append] at hj
      rcases hj with hj | hj
      · exact lt_trans (hlt j hj) (Nat.lt_succ_self index)
      · simp at hj
        omega
    rw [hstep, ih _ _ _ hnd2 hfresh2 hlt2]
    apply congrArg
    refine Prod.ext ?_ (Prod.ext ?_ ?_)
    · dsimp only
      rw [List.map_cons, List.length_cons, List.range'_succ, List.zip_cons_cons,
        List.append_assoc]
      rfl
    · dsimp only
      rw [List.map_cons, List.length_cons, List.range'_succ, List.zip_cons_cons,
        List.append_assoc]
      rfl
    · dsimp only
      simp only [List.length_cons]
      omega

theorem insertPCSSs_eq {K : Type} [DecidableEq K] (combine childSubsplit : K → K → K)
    (pcss : List (K × List K)) :
    ∀ (indexer : List (K × ℕ)) (parentToRange : List (K × (ℕ × ℕ)))
      (indexToChild : List (ℕ × K)) (index : ℕ),
      (pcss.flatMap (fun pc => pc.2.map (combine pc.1))).Nodup →
      (∀ x ∈ pcss.flatMap (fun pc => pc.2.map (combine pc.1)),
        x ∉ indexer.map Prod.fst) →
      (pcss.map Prod.fst).Nodup →
      (∀ p ∈ pcss.map Prod.fst, p ∉ parentToRange.map Prod.fst) →
      (∀ j ∈ indexToChild.map Prod.fst, j < index) →
      insertPCSSs combine childSubsplit indexer parentToRange indexToChild index pcss =
        some (indexer ++ (pcss.flatMap (fun pc => pc.2.map (combine pc.1))).zip
            (List.range' index (pcss.map (fun pc => pc.2.length)).sum),
          parentToRange ++ (pcss.map Prod.fst).zip
            (rangesFrom index (pcss.map (fun pc => pc.2.length))),
          indexToChild ++
            (List.range' index (pcss.map (fun pc => pc.2.length)).sum).zip
              (pcss.flatMap (fun pc => pc.2.map (childSubsplit pc.1))),
          index + (pcss.map (fun pc => pc.2.length)).sum) := by
  induction pcss with
  | nil =>
    intro indexer parentToRange indexToChild index _ _ _ _ _
    simp [insertPCSSs, rangesFrom]
  | cons pc rest ih =>
    intro indexer parentToRange indexToChild index hknd hkfresh hpnd hpfresh hlt
    rw [List.flatMap_cons] at hknd hkfresh
    rw [List.map_cons] at hpnd hpfresh
    obtain ⟨hknd1, hkndrest, hkdisj⟩ := List.nodup_append.mp hknd
    obtain ⟨hpnd1, hpndrest⟩ := List.nodup_cons.mp hpnd
    have hp : pc.1 ∉ parentToRange.map Prod.fst :=
      hpfresh pc.1 (List.mem_cons_self _ _)
    have hstep1 : safeInsert parentToRange pc.1 (index, index + pc.2.length) =
        some (parentToRange ++ [(pc.1, (index, index + pc.2.length))]) := by
      rw [safeInsert, if_neg hp]
    have hchild := insertChildren_eq combine childSubsplit pc.1 pc.2 indexer indexToChild
      index hknd1 (fun c hc => hkfresh (combine pc.1 c)
        (List.mem_append_left _ (List.mem_map_of_mem _ hc))) hlt
    have hstep : insertPCSSs combine childSubsplit indexer parentToRange indexToChild
        index (pc :: rest) =
        insertPCSSs combine childSubsplit
          (indexer ++ (pc.2.map (combine pc.1)).zip (List.range' index pc.2.length))
          (parentToRange ++ [(pc.1, (index, index + pc.2.length))])
          (indexToChild ++ (List.range' index pc.2.length).zip
            (pc.2.map (childSubsplit pc.1)))
          (index + pc.2.length) rest := by
      rw [insertPCSSs, hstep1]
      show ((insertChildren combine childSubsplit pc.1 indexer indexToChild
          index pc.2).bind _) = _
      rw [hchild]
      rfl
    have hkfresh2 : ∀ x ∈ rest.flatMap (fun pc2 => pc2.2.map (combine pc2.1)),
        x ∉ (indexer ++ (pc.2.map (combine pc.1)).zip
          (List.range' index pc.2.length)).map Prod.fst := by
      intro x hx
      rw [List.map_append, List.mem_append]
      push_neg
      refine ⟨hkfresh x (List.mem_append_right _ hx), ?_⟩
      rw [List.map_fst_zip _ _ (by simp)]
      exact fun hx2 => hkdisj hx2 hx
    have hpfresh2 : ∀ p ∈ rest.map Prod.fst,
        p ∉ (parentToRange ++ [(pc.1, (index, index + pc.2.length))]).map Prod.fst := by
      intro p hp2
      rw [List.map_append, List.mem_append]
      push_neg
      refine ⟨hpfresh p (List.mem_cons_of_mem _ hp2), ?_⟩
      have : p ≠ pc.1 := fun h => hpnd1 (h ▸ hp2)
      simp [this]
    have hlt2 : ∀ j ∈ (indexToChild ++ (List.range' index pc.2.length).zip
        (pc.2.map (childSubsplit pc.1))).map Prod.fst, j < index + pc.2.length := by
      intro j hj
      rw [List.map_append, List.mem_append] at hj
      rcases hj with hj | hj
      · have := hlt j hj
        omega
      · rw [List.map_fst_zip _ _ (by simp)] at hj
        exact (List.mem_range'_1.mp hj).2
    rw [hstep, ih _ _ _ _ hkndrest hkfresh2 hpndrest hpfresh2 hlt2]
    apply congrArg
    have hlen1 : (pc.2.map (combine pc.1)).length = (List.range' index pc.2.length).length := by
      simp
    have hlen2 : (List.range' index pc.2.length).length = (pc.2.map (childSubsplit pc.1)).length := by
      simp
    refine Prod.ext ?_ (Prod.ext ?_ (Prod.ext ?_ ?_))
    · dsimp only
      rw [List.flatMap_cons, List.map_cons, List.sum_cons, range'_split pc.2.length,
        List.zip_append hlen1, List.append_assoc]
    · dsimp only
      rw [List.map_cons, List.map_cons]
      rw [show rangesFrom index (pc.2.length :: List.map (fun pc => pc.2.length) rest) =
          (index, index + pc.2.length) :: rangesFrom (index + pc.2.length)
            (List.map (fun pc => pc.2.length) rest) from rfl,
        List.zip_cons_cons, List.append_assoc]
      rfl
    · dsimp only
      rw [List.flatMap_cons, List.map_cons, List.sum_cons, range'_split pc.2.length,
        List.zip_append hlen2, List.append_assoc]
    · dsimp only
      rw [List.map_cons, List.sum_cons]
      omega

theorem flatMap_map_length {K : Type} (f : K → K → K) (pcss : List (K × List K)) :
    (pcss.flatMap (fun pc => pc.2.map (f pc.1))).length =
      (pcss.map (fun pc => pc.2.length)).sum := by
  rw [List.length_flatMap]
  congr 1
  apply List.map_congr_left
  intro pc _
  simp

theorem map_length_comp_map {K : Type} (f : K → K → K) (pcss : List (K × List K)) :
    List.map (List.length ∘ fun pc => List.map (f pc.1) pc.2) pcss =
      List.map (fun pc => pc.2.length) pcss := by
  apply List.map_congr_left
  intro pc _
  simp

/-- C6: after `GPDAG::ProcessTrees` on the (distinct-key) iterations of
the rootsplit and PCSS counters of a tree collection, the indexer is a
bijection onto `[0, gpcsp_count)`: its keys are the `R` rootsplits
followed by the parent+child PCSP bitsets, pairwise distinct, and its
values are exactly `0, 1, …, gpcsp_count−1`, with the rootsplits
occupying indices `[0, R)`; each observed parent owns the contiguous
range recorded in `parent_to_range_`, of length its number of observed
children; these ranges are pairwise disjoint and together cover
`[R, gpcsp_count)`; and inserting a duplicate key via `SafeInsert` is
fatal. -/
theorem C6_process_trees_indexer {K : Type} [DecidableEq K]
    (combine childSubsplit : K → K → K)
    (rootsplitCounter : List K) (pcssCounter : List (K × List K)) :
    (((rootsplitCounter ++
          pcssCounter.flatMap (fun pc => pc.2.map (combine pc.1))).Nodup ∧
        (pcssCounter.map Prod.fst).Nodup) →
      ∃ r, processTrees combine childSubsplit rootsplitCounter pcssCounter = some r ∧
        r.gpcspCount = rootsplitCounter.length +
          (pcssCounter.map (fun pc => pc.2.length)).sum ∧
        r.indexer.map Prod.fst =
          rootsplitCounter ++ pcssCounter.flatMap (fun pc => pc.2.map (combine pc.1)) ∧
        r.indexer.map Prod.snd = List.range r.gpcspCount ∧
        (r.indexer.map Prod.fst).Nodup ∧
        r.indexer.take rootsplitCounter.length =
          rootsplitCounter.zip (List.range' 0 rootsplitCounter.length) ∧
        r.parentToRange = (pcssCounter.map Prod.fst).zip
          (rangesFrom rootsplitCounter.length
            (pcssCounter.map (fun pc => pc.2.length))) ∧
        (r.parentToRange.map Prod.snd).map (fun pr => pr.2 - pr.1) =
          pcssCounter.map (fun pc => pc.2.length) ∧
        (r.parentToRange.map Prod.snd).Pairwise
          (fun a b => Disjoint (Finset.Ico a.1 a.2) (Finset.Ico b.1 b.2)) ∧
        ((r.parentToRange.map Prod.snd).map (fun pr => Finset.Ico pr.1 pr.2)).foldr
            (· ∪ ·) ∅ =
          Finset.Ico rootsplitCounter.length r.gpcspCount) ∧
    (∀ (m : List (K × ℕ)) (k : K) (v : ℕ), k ∈ m.map Prod.fst →
      safeInsert m k v = none) := by
  constructor
  · rintro ⟨hknd, hpnd⟩
    obtain ⟨hrnd, hfnd, hdisj⟩ := List.nodup_append.mp hknd
    have h1 := insertRootsplits_eq rootsplitCounter [] 0 hrnd (by simp)
    have h2 := insertPCSSs_eq combine childSubsplit pcssCounter
      (rootsplitCounter.zip (List.range' 0 rootsplitCounter.length)) [] []
      (0 + rootsplitCounter.length) hfnd
      (by
        intro x hx
        rw [List.map_fst_zip _ _ (by simp)]
        exact fun hx2 => hdisj hx2 hx)
      hpnd (by simp) (by simp)
    have hrun : processTrees combine childSubsplit rootsplitCounter pcssCounter =
        some ⟨(rootsplitCounter.zip (List.range' 0 rootsplitCounter.length)) ++
            (pcssCounter.flatMap (fun pc => pc.2.map (combine pc.1))).zip
              (List.range' (0 + rootsplitCounter.length)
                (pcssCounter.map (fun pc => pc.2.length)).sum),
          rootsplitCounter,
          [] ++ (pcssCounter.map Prod.fst).zip
            (rangesFrom (0 + rootsplitCounter.length)
              (pcssCounter.map (fun pc => pc.2.length))),
          [] ++ (List.range' (0 + rootsplitCounter.length)
              (pcssCounter.map (fun pc => pc.2.length)).sum).zip
            (pcssCounter.flatMap (fun pc => pc.2.map (childSubsplit pc.1))),
          0 + rootsplitCounter.length +
            (pcssCounter.map (fun pc => pc.2.length)).sum⟩ := by
      rw [processTrees]
      show (insertRootsplits [] 0 rootsplitCounter).bind _ = _
      rw [h1]
      show (insertPCSSs combine childSubsplit
        ([] ++ rootsplitCounter.zip (List.range' 0 rootsplitCounter.length)) [] []
        (0 + rootsplitCounter.length) pcssCounter).bind _ = _
      rw [List.nil_append, h2]
      rfl
    refine ⟨_, hrun, ?_, ?_, ?_, ?_, ?_, ?_, ?_, ?_, ?_⟩
    · dsimp only
      omega
    · dsimp only
      rw [List.map_append, List.map_fst_zip _ _ (by simp),
        List.map_fst_zip _ _ (by simp [map_length_comp_map])]
    · dsimp only
      rw [List.map_append, List.map_snd_zip _ _ (by simp),
        List.map_snd_zip _ _ (by simp [map_length_comp_map]),
        ← range'_split rootsplitCounter.length 0,
        List.range_eq_range']
      congr 1
      omega
    · dsimp only
      rw [List.map_append, List.map_fst_zip _ _ (by simp),
        List.map_fst_zip _ _ (by simp [map_length_comp_map])]
      exact hknd
    · dsimp only
      exact List.take_left' (by simp)
    · dsimp only
      rw [List.nil_append, Nat.zero_add]
    · dsimp only
      rw [List.nil_append, List.map_snd_zip _ _ (by simp [rangesFrom_length]),
        rangesFrom_lengths]
    · dsimp only
      rw [List.nil_append, List.map_snd_zip _ _ (by simp [rangesFrom_length])]
      exact rangesFrom_pairwise_disjoint _ _
    · dsimp only
      rw [List.nil_append, List.map_snd_zip _ _ (by simp [rangesFrom_length]),
        rangesFrom_union]
      congr 1
      omega
  · intro m k v hk
    rw [safeInsert, if_pos hk]

theorem C6_witness :
    ((([5] ++ [((7 : ℕ), [1, 2])].flatMap
          (fun pc => pc.2.map ((fun a b : ℕ => 100 * a + b) pc.1))).Nodup ∧
        ([((7 : ℕ), [1, 2])].map Prod.fst).Nodup) ∧
      (∃ r, processTrees (fun a b : ℕ => 100 * a + b) (fun _ b => b)
            [5] [(7, [1, 2])] = some r ∧
        r.gpcspCount = ([5] : List ℕ).length +
          ([((7 : ℕ), [1, 2])].map (fun pc => pc.2.length)).sum ∧
        r.indexer.map Prod.fst =
          [5] ++ [((7 : ℕ), [1, 2])].flatMap
            (fun pc => pc.2.map ((fun a b : ℕ => 100 * a + b) pc.1)) ∧
        r.indexer.map Prod.snd = List.range r.gpcspCount ∧
        (r.indexer.map Prod.fst).Nodup ∧
        r.indexer.take ([5] : List ℕ).length =
          ([5] : List ℕ).zip (List.range' 0 ([5] : List ℕ).length) ∧
        r.parentToRange = ([((7 : ℕ), [1, 2])].map Prod.fst).zip
          (rangesFrom ([5] : List ℕ).length
            ([((7 : ℕ), [1, 2])].map (fun pc => pc.2.length))) ∧
        (r.parentToRange.map Prod.snd).map (fun pr => pr.2 - pr.1) =
          [((7 : ℕ), [1, 2])].map (fun pc => pc.2.length) ∧
        (r.parentToRange.map Prod.snd).Pairwise
          (fun a b => Disjoint (Finset.Ico a.1 a.2) (Finset.Ico b.1 b.2)) ∧
        ((r.parentToRange.map Prod.snd).map (fun pr => Finset.Ico pr.1 pr.2)).foldr
            (· ∪ ·) ∅ =
          Finset.Ico ([5] : List ℕ).length r.gpcspCount)) ∧
    ((0 : ℕ) ∈ ([((0 : ℕ), (0 : ℕ))] : List (ℕ × ℕ)).map Prod.fst ∧
      safeInsert [((0 : ℕ), (0 : ℕ))] (0 : ℕ) 1 = none) :=
  ⟨⟨⟨by decide, by decide⟩,
    (C6_process_trees_indexer (fun a b : ℕ => 100 * a + b) (fun _ b => b)
      [5] [(7, [1, 2])]).1 ⟨by decide, by decide⟩⟩,
    by decide,
    (C6_process_trees_indexer (fun a b : ℕ => 100 * a + b) (fun _ b => b)
      [5] [(7, [1, 2])]).2 [((0 : ℕ), (0 : ℕ))] 0 1 (by decide)⟩

/-!
gp_dag.cpp: the traversal orders (C5).  `RootwardDepthFirst` and
`LeafwardDepthFirst` (gp_dag.cpp 197-229) are the same recursion applied
to the rootward resp. leafward adjacency (sorted edges first, then
rotated), maintaining a `visit_order` list and a `visited_nodes` set:
visit a node by inserting it into the visited set, recursing into each
unvisited adjacent node, and appending the node to the order afterwards
(post-order).  We embed this as one depth-first function over an
abstract adjacency `adj : Fin N → List (Fin N)`, processing a worklist;
the visited guard is applied to every worklist element (in
`RootwardPassTraversal`/`LeafwardPassTraversal` the top-level guard is a
no-op, since a rootsplit node is never leafward-reachable from another
rootsplit node and a leaf never rootward-reachable from another leaf, so
the top-level sources are unvisited when their turn comes).
-/

/-- The state of a depth-first traversal: the `visit_order` list built so
far and the `visited_nodes` set. -/
abbrev DfsState (N : ℕ) := List (Fin N) × Finset (Fin N)

/-- The depth-first recursion of gp_dag.cpp 197-229 over a worklist:
skip a visited node; otherwise insert it into the visited set, process
its adjacency list, and append it to the visit order (post-order).  The
result carries the proof that the visited set only grows (needed for
termination). -/
def depthFirstList {N : ℕ} (adj : Fin N → List (Fin N)) :
    (l : List (Fin N)) → (s : DfsState N) → { t : DfsState N // s.2 ⊆ t.2 }
  | [], s => ⟨s, Finset.Subset.refl s.2⟩
  | x :: rest, s =>
    if hx : x ∈ s.2 then
      ⟨(depthFirstList adj rest s).1, (depthFirstList adj rest s).2⟩
    else
      match depthFirstList adj (adj x) (s.1, insert x s.2) with
      | ⟨s1, hs1⟩ =>
        match depthFirstList adj rest (s1.1 ++ [x], s1.2) with
        | ⟨t, ht⟩ =>
          ⟨t, by
            refine Finset.Subset.trans (Finset.subset_insert x s.2) ?_
            exact Finset.Subset.trans hs1 ht⟩
termination_by l s => ((Finset.univ \ s.2).card, l.length)
decreasing_by
  · exact Prod.Lex.right _ (Nat.lt_succ_self rest.length)
  · apply Prod.Lex.left
    apply Finset.card_lt_card
    constructor
    · exact Finset.sdiff_subset_sdiff (Finset.Subset.refl _) (Finset.subset_insert x s.2)
    · intro hsub
      have hxmem : x ∈ Finset.univ \ s.2 := by
        rw [Finset.mem_sdiff]
        exact ⟨Finset.mem_univ x, hx⟩
      have := hsub hxmem
      rw [Finset.mem_sdiff] at this
      exact this.2 (Finset.mem_insert_self x s.2)
  · apply Prod.Lex.left
    have h1 : (Finset.univ \ s1.2).card ≤ (Finset.univ \ insert x s.2).card := by
      apply Finset.card_le_card
      exact Finset.sdiff_subset_sdiff (Finset.Subset.refl _) hs1
    have h2 : (Finset.univ \ insert x s.2).card < (Finset.univ \ s.2).card := by
      apply Finset.card_lt_card
      constructor
      · exact Finset.sdiff_subset_sdiff (Finset.Subset.refl _) (Finset.subset_insert x s.2)
      · intro hsub
        have hxmem : x ∈ Finset.univ \ s.2 := by
          rw [Finset.mem_sdiff]
          exact ⟨Finset.mem_univ x, hx⟩
        have := hsub hxmem
        rw [Finset.mem_sdiff] at this
        exact this.2 (Finset.mem_insert_self x s.2)
    omega

/-- The depth-first traversal state transformer (the pair, without the
monotonicity certificate). -/
def dfsAux {N : ℕ} (adj : Fin N → List (Fin N)) (l : List (Fin N)) (s : DfsState N) :
    DfsState N :=
  (depthFirstList adj l s).1

theorem dfsAux_mono {N : ℕ} (adj : Fin N → List (Fin N)) (l : List (Fin N))
    (s : DfsState N) : s.2 ⊆ (dfsAux adj l s).2 :=
  (depthFirstList adj l s).2

theorem dfsAux_nil {N : ℕ} (adj : Fin N → List (Fin N)) (s : DfsState N) :
    dfsAux adj [] s = s := by
  rw [dfsAux, depthFirstList]

theorem dfsAux_cons_mem {N : ℕ} (adj : Fin N → List (Fin N)) (x : Fin N)
    (rest : List (Fin N)) (s : DfsState N) (hx : x ∈ s.2) :
    dfsAux adj (x :: rest) s = dfsAux adj rest s := by
  rw [dfsAux, depthFirstList, dif_pos hx]
  rfl

theorem dfsAux_cons_not_mem {N : ℕ} (adj : Fin N → List (Fin N)) (x : Fin N)
    (rest : List (Fin N)) (s : DfsState N) (hx : x ∉ s.2) :
    dfsAux adj (x :: rest) s =
      dfsAux adj rest
        ((dfsAux adj (adj x) (s.1, insert x s.2)).1 ++ [x],
         (dfsAux adj (adj x) (s.1, insert x s.2)).2) := by
  rw [dfsAux, depthFirstList, dif_neg hx]
  rfl

theorem card_sdiff_insert_lt {N : ℕ} (s2 : Finset (Fin N)) (x : Fin N) (hx : x ∉ s2) :
    (Finset.univ \ insert x s2).card < (Finset.univ \ s2).card := by
  apply Finset.card_lt_card
  constructor
  · exact Finset.sdiff_subset_sdiff (Finset.Subset.refl _) (Finset.subset_insert x s2)
  · intro hsub
    have hxmem : x ∈ Finset.univ \ s2 := Finset.mem_sdiff.mpr ⟨Finset.mem_univ x, hx⟩
    have := hsub hxmem
    rw [Finset.mem_sdiff] at this
    exact this.2 (Finset.mem_insert_self x s2)

theorem card_sdiff_le_of_subset {N : ℕ} {a b : Finset (Fin N)} (h : a ⊆ b) :
    (Finset.univ \ b).card ≤ (Finset.univ \ a).card :=
  Finset.card_le_card (Finset.sdiff_subset_sdiff (Finset.Subset.refl _) h)

/-- Shape of a depth-first run: it appends a block of fresh, pairwise
distinct nodes to the visit order, and the visited set grows by exactly
that block. -/
theorem dfsAux_shape {N : ℕ} (adj : Fin N → List (Fin N)) :
    ∀ (c : ℕ) (l : List (Fin N)) (s : DfsState N),
      (Finset.univ \ s.2).card ≤ c →
      ∃ t, dfsAux adj l s = (s.1 ++ t, s.2 ∪ t.toFinset) ∧
        t.Nodup ∧ ∀ x ∈ t, x ∉ s.2 := by
  intro c
  induction c with
  | zero =>
    intro l
    induction l with
    | nil =>
      intro s _
      exact ⟨[], by simp [dfsAux_nil], List.nodup_nil, by simp⟩
    | cons x rest ihl =>
      intro s hc
      have hempty : Finset.univ \ s.2 = ∅ :=
        Finset.card_eq_zero.mp (le_antisymm hc (Nat.zero_le _))
      have hx : x ∈ s.2 := by
        by_contra hnx
        have hmem : x ∈ Finset.univ \ s.2 :=
          Finset.mem_sdiff.mpr ⟨Finset.mem_univ x, hnx⟩
        rw [hempty] at hmem
        exact absurd hmem (Finset.not_mem_empty x)
      rw [dfsAux_cons_mem adj x rest s hx]
      exact ihl s hc
  | succ c ihc =>
    intro l
    induction l with
    | nil =>
      intro s _
      exact ⟨[], by simp [dfsAux_nil], List.nodup_nil, by simp⟩
    | cons x rest ihl =>
      intro s hc
      by_cases hx : x ∈ s.2
      · rw [dfsAux_cons_mem adj x rest s hx]
        exact ihl s hc
      · rw [dfsAux_cons_not_mem adj x rest s hx]
        have hcard1 : (Finset.univ \ (insert x s.2)).card ≤ c := by
          have := card_sdiff_insert_lt s.2 x hx
          omega
        obtain ⟨t1, heq1, hnd1, hfr1⟩ := ihc (adj x) (s.1, insert x s.2) hcard1
        rw [heq1]
        dsimp only
        have hcard2 : (Finset.univ \ (insert x s.2 ∪ t1.toFinset)).card ≤ c :=
          le_trans (card_sdiff_le_of_subset Finset.subset_union_left) hcard1
        obtain ⟨t2, heq2, hnd2, hfr2⟩ :=
          ihc rest (s.1 ++ t1 ++ [x], insert x s.2 ∪ t1.toFinset) hcard2
        rw [heq2]
        dsimp only
        refine ⟨t1 ++ x :: t2, ?_, ?_, ?_⟩
        · refine congrArg₂ Prod.mk ?_ ?_
          · simp [List.append_assoc]
          · ext y
            simp only [Finset.mem_union, Finset.mem_insert, List.mem_toFinset,
              List.mem_append, List.mem_cons]
            tauto
        · rw [List.nodup_append]
          refine ⟨hnd1, ?_, ?_⟩
          · rw [List.nodup_cons]
            refine ⟨fun hxt2 => ?_, hnd2⟩
            exact hfr2 x hxt2 (Finset.mem_union_left _ (Finset.mem_insert_self x s.2))
          · intro y hy1 hy2
            rcases List.mem_cons.mp hy2 with rfl | hy2
            · exact hfr1 y hy1 (Finset.mem_insert_self y s.2)
            · exact hfr2 y hy2
                (Finset.mem_union_right _ (List.mem_toFinset.mpr hy1))
        · intro y hy
          rcases List.mem_append.mp hy with hy1 | hy2
          · exact fun hys => hfr1 y hy1 (Finset.mem_insert_of_mem hys)
          · rcases List.mem_cons.mp hy2 with rfl | hy2
            · exact hx
            · exact fun hys => hfr2 y hy2
                (Finset.mem_union_left _ (Finset.mem_insert_of_mem hys))

theorem dfsAux_worklist_visited {N : ℕ} (adj : Fin N → List (Fin N)) :
    ∀ (l : List (Fin N)) (s : DfsState N) (y : Fin N), y ∈ l →
      y ∈ (dfsAux adj l s).2 := by
  intro l
  induction l with
  | nil => intro s y hy; cases hy
  | cons x rest ih =>
    intro s y hy
    by_cases hx : x ∈ s.2
    · rw [dfsAux_cons_mem adj x rest s hx]
      rcases List.mem_cons.mp hy with rfl | hy
      · exact dfsAux_mono adj rest s hx
      · exact ih s y hy
    · rw [dfsAux_cons_not_mem adj x rest s hx]
      rcases List.mem_cons.mp hy with rfl | hy
      · exact dfsAux_mono adj rest _
          (dfsAux_mono adj (adj y) (s.1, insert y s.2) (Finset.mem_insert_self y s.2))
      · exact ih _ y hy

theorem univ_subset_of_sdiff_card_zero {N : ℕ} {s2 : Finset (Fin N)}
    (hc : (Finset.univ \ s2).card ≤ 0) : ∀ x : Fin N, x ∈ s2 := by
  intro x
  have hempty : Finset.univ \ s2 = ∅ :=
    Finset.card_eq_zero.mp (le_antisymm hc (Nat.zero_le _))
  by_contra hnx
  have hmem : x ∈ Finset.univ \ s2 := Finset.mem_sdiff.mpr ⟨Finset.mem_univ x, hnx⟩
  rw [hempty] at hmem
  exact absurd hmem (Finset.not_mem_empty x)

theorem dfsAux_closed {N : ℕ} (adj : Fin N → List (Fin N)) :
    ∀ (c : ℕ) (l : List (Fin N)) (s : DfsState N),
      (Finset.univ \ s.2).card ≤ c →
      ∀ x, x ∈ (dfsAux adj l s).2 →
        x ∈ s.2 ∨ ∀ y ∈ adj x, y ∈ (dfsAux adj l s).2 := by
  intro c
  induction c with
  | zero =>
    intro l s hc x _
    exact Or.inl (univ_subset_of_sdiff_card_zero hc x)
  | succ c ihc =>
    intro l
    induction l with
    | nil =>
      intro s _ x hx
      rw [dfsAux_nil] at hx
      exact Or.inl hx
    | cons x0 rest ihl =>
      intro s hc x hx
      by_cases hx0 : x0 ∈ s.2
      · rw [dfsAux_cons_mem adj x0 rest s hx0] at hx ⊢
        exact ihl s hc x hx
      · rw [dfsAux_cons_not_mem adj x0 rest s hx0] at hx ⊢
        have hcard1 : (Finset.univ \ (insert x0 s.2)).card ≤ c := by
          have := card_sdiff_insert_lt s.2 x0 hx0
          omega
        have hcard2 : (Finset.univ \
            (dfsAux adj (adj x0) (s.1, insert x0 s.2)).2).card ≤ c :=
          le_trans (card_sdiff_le_of_subset
            (dfsAux_mono adj (adj x0) (s.1, insert x0 s.2))) hcard1
        rcases ihc rest ((dfsAux adj (adj x0) (s.1, insert x0 s.2)).1 ++ [x0],
            (dfsAux adj (adj x0) (s.1, insert x0 s.2)).2) hcard2 x hx with hmem | hclosed
        · rcases ihc (adj x0) (s.1, insert x0 s.2) hcard1 x hmem with hmem2 | hclosed2
          · rcases Finset.mem_insert.mp hmem2 with rfl | hmem3
            · refine Or.inr ?_
              intro y hy
              exact dfsAux_mono adj rest _
                (dfsAux_worklist_visited adj (adj x) (s.1, insert x s.2) y hy)
            · exact Or.inl hmem3
          · refine Or.inr ?_
            intro y hy
            exact dfsAux_mono adj rest _ (hclosed2 y hy)
        · exact Or.inr hclosed

theorem dfsAux_visited_reachable {N : ℕ} (adj : Fin N → List (Fin N)) :
    ∀ (c : ℕ) (l : List (Fin N)) (s : DfsState N),
      (Finset.univ \ s.2).card ≤ c →
      ∀ x, x ∈ (dfsAux adj l s).2 →
        x ∈ s.2 ∨ ∃ r ∈ l, Relation.ReflTransGen (fun a b => b ∈ adj a) r x := by
  intro c
  induction c with
  | zero =>
    intro l s hc x _
    exact Or.inl (univ_subset_of_sdiff_card_zero hc x)
  | succ c ihc =>
    intro l
    induction l with
    | nil =>
      intro s _ x hx
      rw [dfsAux_nil] at hx
      exact Or.inl hx
    | cons x0 rest ihl =>
      intro s hc x hx
      by_cases hx0 : x0 ∈ s.2
      · rw [dfsAux_cons_mem adj x0 rest s hx0] at hx
        rcases ihl s hc x hx with h | ⟨r, hr, hreach⟩
        · exact Or.inl h
        · exact Or.inr ⟨r, List.mem_cons_of_mem x0 hr, hreach⟩
      · rw [dfsAux_cons_not_mem adj x0 rest s hx0] at hx
        have hcard1 : (Finset.univ \ (insert x0 s.2)).card ≤ c := by
          have := card_sdiff_insert_lt s.2 x0 hx0
          omega
        have hcard2 : (Finset.univ \
            (dfsAux adj (adj x0) (s.1, insert x0 s.2)).2).card ≤ c :=
          le_trans (card_sdiff_le_of_subset
            (dfsAux_mono adj (adj x0) (s.1, insert x0 s.2))) hcard1
        rcases ihc rest ((dfsAux adj (adj x0) (s.1, insert x0 s.2)).1 ++ [x0],
            (dfsAux adj (adj x0) (s.1, insert x0 s.2)).2) hcard2 x hx with
          hmem | ⟨r, hr, hreach⟩
        · rcases ihc (adj x0) (s.1, insert x0 s.2) hcard1 x hmem with hmem2 | ⟨r, hr, hreach⟩
          · rcases Finset.mem_insert.mp hmem2 with rfl | hmem3
            · exact Or.inr ⟨x, List.mem_cons_self x rest, Relation.ReflTransGen.refl⟩
            · exact Or.inl hmem3
          · exact Or.inr ⟨x0, List.mem_cons_self x0 rest,
              Relation.ReflTransGen.head hr hreach⟩
        · exact Or.inr ⟨r, List.mem_cons_of_mem x0 hr, hreach⟩

/-- Every listed node's adjacent nodes appear strictly earlier in the
list. -/
def childrenBefore {N : ℕ} (adj : Fin N → List (Fin N)) (ord : List (Fin N)) : Prop :=
  ∀ j z, ord.get? j = some z → ∀ y ∈ adj z, ∃ i, i < j ∧ ord.get? i = some y

theorem dfsAux_postorder {N : ℕ} (adj : Fin N → List (Fin N)) (rank : Fin N → ℕ)
    (hrank : ∀ x y, y ∈ adj x → rank y < rank x) :
    ∀ (c : ℕ) (l : List (Fin N)) (s : DfsState N) (G : Finset (Fin N)),
      (Finset.univ \ s.2).card ≤ c →
      s.2 ⊆ s.1.toFinset ∪ G →
      (∀ g ∈ G, ∀ y ∈ l, rank y < rank g) →
      childrenBefore adj s.1 →
      childrenBefore adj (dfsAux adj l s).1 ∧
        (dfsAux adj l s).2 ⊆ (dfsAux adj l s).1.toFinset ∪ G := by
  intro c
  induction c with
  | zero =>
    intro l
    induction l with
    | nil =>
      intro s G _ hsub _ hcb
      rw [dfsAux_nil]
      exact ⟨hcb, hsub⟩
    | cons x rest ihl =>
      intro s G hc hsub hG hcb
      have hx : x ∈ s.2 := univ_subset_of_sdiff_card_zero hc x
      rw [dfsAux_cons_mem adj x rest s hx]
      exact ihl s G hc hsub (fun g hg y hy => hG g hg y (List.mem_cons_of_mem x hy)) hcb
  | succ c ihc =>
    intro l
    induction l with
    | nil =>
      intro s G _ hsub _ hcb
      rw [dfsAux_nil]
      exact ⟨hcb, hsub⟩
    | cons x0 rest ihl =>
      intro s G hc hsub hG hcb
      by_cases hx0 : x0 ∈ s.2
      · rw [dfsAux_cons_mem adj x0 rest s hx0]
        exact ihl s G hc hsub
          (fun g hg y hy => hG g hg y (List.mem_cons_of_mem x0 hy)) hcb
      · rw [dfsAux_cons_not_mem adj x0 rest s hx0]
        have hcard1 : (Finset.univ \ (insert x0 s.2)).card ≤ c := by
          have := card_sdiff_insert_lt s.2 x0 hx0
          omega
        have hsub1 : (s.1, insert x0 s.2).2 ⊆
            (s.1, insert x0 s.2).1.toFinset ∪ insert x0 G := by
          intro y hy
          rcases Finset.mem_insert.mp hy with rfl | hy2
          · exact Finset.mem_union_right _ (Finset.mem_insert_self y G)
          · rcases Finset.mem_union.mp (hsub hy2) with h | h
            · exact Finset.mem_union_left _ h
            · exact Finset.mem_union_right _ (Finset.mem_insert_of_mem h)
        have hG1 : ∀ g ∈ insert x0 G, ∀ y ∈ adj x0, rank y < rank g := by
          intro g hg y hy
          rcases Finset.mem_insert.mp hg with rfl | hg2
          · exact hrank _ y hy
          · exact lt_trans (hrank x0 y hy) (hG g hg2 x0 (List.mem_cons_self x0 rest))
        obtain ⟨hcb1, hsub1r⟩ :=
          ihc (adj x0) (s.1, insert x0 s.2) (insert x0 G) hcard1 hsub1 hG1 hcb
        set inr := dfsAux adj (adj x0) (s.1, insert x0 s.2) with hinr
        have hpushcb : childrenBefore adj (inr.1 ++ [x0]) := by
          intro j z hj y hy
          by_cases hjlen : j < inr.1.length
          · rw [List.get?_append hjlen] at hj
            obtain ⟨i, hi, hival⟩ := hcb1 j z hj y hy
            exact ⟨i, hi, by rw [List.get?_append (lt_trans hi hjlen)]; exact hival⟩
          · have hjge : inr.1.length ≤ j := le_of_not_lt hjlen
            rw [List.get?_append_right hjge] at hj
            have hzx : z = x0 ∧ j = inr.1.length := by
              rcases Nat.eq_zero_or_pos (j - inr.1.length) with hz | hz
              · rw [hz] at hj
                simp at hj
                exact ⟨hj.symm, by omega⟩
              · rw [List.get?_eq_none.mpr (by simp; omega)] at hj
                cases hj
            obtain ⟨rfl, rfl⟩ := hzx
            have hyv : y ∈ inr.2 :=
              dfsAux_worklist_visited adj (adj z) (s.1, insert z s.2) y hy
            rcases Finset.mem_union.mp (hsub1r hyv) with hmem | hmem
            · rw [List.mem_toFinset] at hmem
              obtain ⟨i, hival⟩ := List.mem_iff_get?.mp hmem
              have hilen : i < inr.1.length := by
                by_contra hge
                rw [List.get?_eq_none.mpr (le_of_not_lt hge)] at hival
                cases hival
              exact ⟨i, hilen, by rw [List.get?_append hilen]; exact hival⟩
            · rcases Finset.mem_insert.mp hmem with rfl | hmem2
              · exact absurd (hrank y y hy) (lt_irrefl (rank y))
              · exact absurd (hrank z y hy)
                  (not_lt.mpr (le_of_lt (hG y hmem2 z (List.mem_cons_self z rest))))
        have hpushsub : inr.2 ⊆ (inr.1 ++ [x0]).toFinset ∪ G := by
          intro y hy
          rcases Finset.mem_union.mp (hsub1r hy) with h | h
          · refine Finset.mem_union_left _ ?_
            rw [List.toFinset_append]
            exact Finset.mem_union_left _ h
          · rcases Finset.mem_insert.mp h with rfl | h2
            · refine Finset.mem_union_left _ ?_
              rw [List.toFinset_append]
              refine Finset.mem_union_right _ ?_
              simp
            · exact Finset.mem_union_right _ h2
        have hcard2 : (Finset.univ \ inr.2).card ≤ c :=
          le_trans (card_sdiff_le_of_subset
            (dfsAux_mono adj (adj x0) (s.1, insert x0 s.2))) hcard1
        exact ihc rest (inr.1 ++ [x0], inr.2) G hcard2 hpushsub
          (fun g hg y hy => hG g hg y (List.mem_cons_of_mem x0 hy)) hpushcb

/-- A multi-source depth-first run (the loops of
`GPDAG::RootwardPassTraversal` / `GPDAG::LeafwardPassTraversal`,
gp_dag.cpp 231-251) starting from an empty visit order and visited set;
returns the final visit order. -/
def depthFirstRun {N : ℕ} (adj : Fin N → List (Fin N)) (srcs : List (Fin N)) :
    List (Fin N) :=
  (dfsAux adj srcs ([], ∅)).1

theorem depthFirstRun_shape {N : ℕ} (adj : Fin N → List (Fin N))
    (srcs : List (Fin N)) :
    dfsAux adj srcs (([], ∅) : DfsState N) =
      (depthFirstRun adj srcs, (depthFirstRun adj srcs).toFinset) ∧
    (depthFirstRun adj srcs).Nodup := by
  obtain ⟨t, heq, hnd, _⟩ :=
    dfsAux_shape adj (Finset.univ \ (∅ : Finset (Fin N))).card srcs ([], ∅) le_rfl
  have hrun : depthFirstRun adj srcs = t := by
    rw [depthFirstRun, heq]
    rfl
  rw [hrun, heq]
  refine ⟨?_, hnd⟩
  refine congrArg₂ Prod.mk ?_ ?_
  · rfl
  · rw [Finset.empty_union]

theorem depthFirstRun_mem_iff {N : ℕ} (adj : Fin N → List (Fin N))
    (srcs : List (Fin N)) (x : Fin N) :
    x ∈ depthFirstRun adj srcs ↔
      ∃ r ∈ srcs, Relation.ReflTransGen (fun a b => b ∈ adj a) r x := by
  obtain ⟨heq, _⟩ := depthFirstRun_shape adj srcs
  constructor
  · intro hx
    have hxv : x ∈ (dfsAux adj srcs (([], ∅) : DfsState N)).2 := by
      rw [heq]
      exact List.mem_toFinset.mpr hx
    rcases dfsAux_visited_reachable adj _ srcs ([], ∅) le_rfl x hxv with h | h
    · exact absurd h (Finset.not_mem_empty x)
    · exact h
  · rintro ⟨r, hr, hreach⟩
    have hclosed : ∀ z, z ∈ (dfsAux adj srcs (([], ∅) : DfsState N)).2 →
        ∀ y ∈ adj z, y ∈ (dfsAux adj srcs (([], ∅) : DfsState N)).2 := by
      intro z hz
      rcases dfsAux_closed adj _ srcs ([], ∅) le_rfl z hz with h | h
      · exact absurd h (Finset.not_mem_empty z)
      · exact h
    have hfinal : x ∈ (dfsAux adj srcs (([], ∅) : DfsState N)).2 := by
      induction hreach with
      | refl => exact dfsAux_worklist_visited adj srcs ([], ∅) r hr
      | tail p hedge ih => exact hclosed _ ih _ hedge
    rw [heq] at hfinal
    exact List.mem_toFinset.mp hfinal

theorem depthFirstRun_postorder {N : ℕ} (adj : Fin N → List (Fin N))
    (srcs : List (Fin N)) (rank : Fin N → ℕ)
    (hrank : ∀ x y, y ∈ adj x → rank y < rank x) :
    childrenBefore adj (depthFirstRun adj srcs) := by
  have h := dfsAux_postorder adj rank hrank
    (Finset.univ \ (∅ : Finset (Fin N))).card srcs ([], ∅) ∅ le_rfl
    (by simp) (by simp) (by intro j z hj y hy; cases hj)
  exact h.1

theorem childrenBefore_transGen {N : ℕ} (adj : Fin N → List (Fin N))
    (ord : List (Fin N)) (h : childrenBefore adj ord) :
    ∀ j x, ord.get? j = some x → ∀ y,
      Relation.TransGen (fun a b => b ∈ adj a) x y →
      ∃ i, i < j ∧ ord.get? i = some y := by
  intro j x hj y hpath
  induction hpath with
  | single hedge => exact h j x hj _ hedge
  | tail p hedge ih =>
    obtain ⟨i, hij, hi⟩ := ih
    obtain ⟨i2, hi2, hival⟩ := h i _ hi _ hedge
    exact ⟨i2, lt_trans hi2 hij, hival⟩

/-- The adjacency data of one sDAG node (`GPDAGNode`): leafward and
rootward neighbour ids, sorted and rotated clade sides. -/
structure GPDAGNodeAdj (N : ℕ) where
  leafwardSorted : List (Fin N)
  leafwardRotated : List (Fin N)
  rootwardSorted : List (Fin N)
  rootwardRotated : List (Fin N)

/-- The adjacency of a built `GPDAG` together with the rootsplit node
ids (`subsplit_to_index_[rootsplit + ~rootsplit]` for each rootsplit)
and the leaf node ids (`0 … taxon_count-1`). -/
structure GPDAGModel (N : ℕ) where
  nodes : Fin N → GPDAGNodeAdj N
  rootsplitIds : List (Fin N)
  leafIds : List (Fin N)

/-- The leafward adjacency used by `LeafwardDepthFirst` (gp_dag.cpp
214-229): sorted children first, then rotated. -/
def leafwardAdj {N : ℕ} (d : GPDAGModel N) (x : Fin N) : List (Fin N) :=
  (d.nodes x).leafwardSorted ++ (d.nodes x).leafwardRotated

/-- The rootward adjacency used by `RootwardDepthFirst` (gp_dag.cpp
197-212): sorted parents first, then rotated. -/
def rootwardAdj {N : ℕ} (d : GPDAGModel N) (x : Fin N) : List (Fin N) :=
  (d.nodes x).rootwardSorted ++ (d.nodes x).rootwardRotated

/-- `GPDAG::RootwardPassTraversal` (gp_dag.cpp 243-251): run
`LeafwardDepthFirst` from every rootsplit node id; the resulting
post-order is the rootward order. -/
def rootwardPassTraversal {N : ℕ} (d : GPDAGModel N) : List (Fin N) :=
  depthFirstRun (leafwardAdj d) d.rootsplitIds

/-- `GPDAG::LeafwardPassTraversal` (gp_dag.cpp 231-241): run
`RootwardDepthFirst` from every leaf id; the resulting post-order is the
leafward order. -/
def leafwardPassTraversal {N : ℕ} (d : GPDAGModel N) : List (Fin N) :=
  depthFirstRun (rootwardAdj d) d.leafIds

/-- C5: for a GPDAG (a DAG witnessed by rank functions decreasing along
leafward resp. rootward edges) in which every non-leaf node is
leafward-reachable from some rootsplit node, the precomputed rootward
order contains every non-leaf node id exactly once, and every node
appears in it after all of its leafward descendants (reached through
leafward-sorted and leafward-rotated edges); dually, the leafward order
lists every node after all of its rootward ancestors. -/
theorem C5_traversal_orders {N : ℕ} (d : GPDAGModel N)
    (rankDown : Fin N → ℕ)
    (hdown : ∀ x y, y ∈ leafwardAdj d x → rankDown y < rankDown x)
    (rankUp : Fin N → ℕ)
    (hup : ∀ x y, y ∈ rootwardAdj d x → rankUp y < rankUp x)
    (hcov : ∀ x : Fin N, x ∉ d.leafIds →
      ∃ r ∈ d.rootsplitIds,
        Relation.ReflTransGen (fun a b => b ∈ leafwardAdj d a) r x) :
    ((rootwardPassTraversal d).Nodup ∧
      (∀ x : Fin N, x ∉ d.leafIds → (rootwardPassTraversal d).count x = 1)) ∧
    (∀ j x, (rootwardPassTraversal d).get? j = some x →
      ∀ y, Relation.TransGen (fun a b => b ∈ leafwardAdj d a) x y →
        ∃ i, i < j ∧ (rootwardPassTraversal d).get? i = some y) ∧
    (∀ j x, (leafwardPassTraversal d).get? j = some x →
      ∀ y, Relation.TransGen (fun a b => b ∈ rootwardAdj d a) x y →
        ∃ i, i < j ∧ (leafwardPassTraversal d).get? i = some y) := by
  have hnd : (rootwardPassTraversal d).Nodup :=
    (depthFirstRun_shape (leafwardAdj d) d.rootsplitIds).2
  refine ⟨⟨hnd, ?_⟩, ?_, ?_⟩
  · intro x hx
    have hmem : x ∈ rootwardPassTraversal d :=
      (depthFirstRun_mem_iff (leafwardAdj d) d.rootsplitIds x).mpr (hcov x hx)
    exact List.count_eq_one_of_mem hnd hmem
  · exact childrenBefore_transGen (leafwardAdj d) _
      (depthFirstRun_postorder (leafwardAdj d) d.rootsplitIds rankDown hdown)
  · exact childrenBefore_transGen (rootwardAdj d) _
      (depthFirstRun_postorder (rootwardAdj d) d.leafIds rankUp hup)

/-- A concrete three-node DAG (two leaves, one rootsplit node) used by
the C5 witness. -/
def witnessDag : GPDAGModel 3 where
  nodes := fun x =>
    if x = 2 then ⟨[0], [1], [], []⟩ else ⟨[], [], [2], []⟩
  rootsplitIds := [2]
  leafIds := [0, 1]

theorem C5_witness :
    (∀ x y, y ∈ leafwardAdj witnessDag x → (fun z : Fin 3 => z.val) y < (fun z : Fin 3 => z.val) x) ∧
    (∀ x y, y ∈ rootwardAdj witnessDag x → (fun z : Fin 3 => 2 - z.val) y < (fun z : Fin 3 => 2 - z.val) x) ∧
    (∀ x : Fin 3, x ∉ witnessDag.leafIds →
      ∃ r ∈ witnessDag.rootsplitIds,
        Relation.ReflTransGen (fun a b => b ∈ leafwardAdj witnessDag a) r x) ∧
    (((rootwardPassTraversal witnessDag).Nodup ∧
      (∀ x : Fin 3, x ∉ witnessDag.leafIds →
        (rootwardPassTraversal witnessDag).count x = 1)) ∧
    (∀ j x, (rootwardPassTraversal witnessDag).get? j = some x →
      ∀ y, Relation.TransGen (fun a b => b ∈ leafwardAdj witnessDag a) x y →
        ∃ i, i < j ∧ (rootwardPassTraversal witnessDag).get? i = some y) ∧
    (∀ j x, (leafwardPassTraversal witnessDag).get? j = some x →
      ∀ y, Relation.TransGen (fun a b => b ∈ rootwardAdj witnessDag a) x y →
        ∃ i, i < j ∧ (leafwardPassTraversal witnessDag).get? i = some y)) := by
  have hcov : ∀ x : Fin 3, x ∉ witnessDag.leafIds →
      ∃ r ∈ witnessDag.rootsplitIds,
        Relation.ReflTransGen (fun a b => b ∈ leafwardAdj witnessDag a) r x := by
    intro x hx
    fin_cases x
    · exact absurd (by decide) hx
    · exact absurd (by decide) hx
    · exact ⟨2, by decide, Relation.ReflTransGen.refl⟩
  exact ⟨by decide, by decide, hcov,
    C5_traversal_orders witnessDag (fun z => z.val) (by decide)
      (fun z => 2 - z.val) (by decide) hcov⟩

end LibSbn
